import Mathlib

/-!
# Framing protocol of the interactive `/bin/sh` wrapper (`shell.go`)

A shallow embedding of the request framing (`gosh_feed`, `Shell.send`, `Shell.id`) and of
the reader goroutine started by `New` (buffer seeding, accumulation loop, decode of the
`__@@GOSH@@__{{id:rc}}` marker with `gosh_re2` / `gosh_re`), followed by theorems about them.

Conventions of the embedding:

* a Go byte slice or string is a `List Nat`, each byte a natural number;
* Go `int` is a 64-bit two's-complement integer: arithmetic on it goes through `wrapInt`;
* a Go `error` is `Option GoError` (`none` is `nil`);
* an index or slice expression that would panic yields `none`;
* the two `regexp` values are regular-expression syntax trees run by a backtracking
  matcher with leftmost-first (Perl-like) preference order, the order of Go's `regexp`.
-/

namespace Gosh

/-! ## Bytes and strings -/

/-- The bytes of an ASCII string literal. -/
def ascii (s : String) : List Nat := s.toList.map Char.toNat

/-- Decimal digit test, the class `\d` restricted to bytes. -/
def isDigit (b : Nat) : Bool := 48 ≤ b && b ≤ 57

/-- Decimal rendering of a Go `int`, as the verb `%d` prints it. -/
def itoa (i : Int) : List Nat :=
  match i with
  | Int.ofNat n => (Nat.toDigits 10 n).map Char.toNat
  | Int.negSucc n => 45 :: (Nat.toDigits 10 (n + 1)).map Char.toNat

/-- Hexadecimal digit used by the `\x` escape of `strconv.Quote`. -/
def hexDigit (n : Nat) : Nat := (ascii "0123456789abcdef").getD n 48

/-- One byte as `strconv.Quote` writes it inside the double quotes. Bytes below 0x80 follow
`strconv.Quote` exactly; a byte from 0x80 on is written as a `\x` escape, which is what
`strconv.Quote` does for bytes that are not part of a valid UTF-8 sequence. -/
def quoteByte (b : Nat) : List Nat :=
  if b = 34 then [92, 34]
  else if b = 92 then [92, 92]
  else if 32 ≤ b ∧ b < 127 then [b]
  else if b = 7 then [92, 97]
  else if b = 8 then [92, 98]
  else if b = 12 then [92, 102]
  else if b = 10 then [92, 110]
  else if b = 13 then [92, 114]
  else if b = 9 then [92, 116]
  else if b = 11 then [92, 118]
  else [92, 120, hexDigit (b / 16), hexDigit (b % 16)]

/-- The verb `%q`: a double-quoted, escaped rendering of the bytes. -/
def Quote (s : List Nat) : List Nat := 34 :: (s.flatMap quoteByte ++ [34])

/-- Operands of `fmt.Sprintf` that `shell.go` uses. -/
inductive Arg where
  | int (i : Int)
  | str (s : List Nat)
  | bytes (b : List Nat)

/-- Output of one formatting verb applied to one operand: `%d` of an int, `%s` of a string,
`%q` of a string or byte slice. -/
def verb (v : Nat) (a : Arg) : Option (List Nat) :=
  match a with
  | .int i => if v = 100 then some (itoa i) else none
  | .str s => if v = 115 then some s else if v = 113 then some (Quote s) else none
  | .bytes b => if v = 115 then some b else if v = 113 then some (Quote b) else none

/-- The function `fmt.Sprintf` on the directives that occur in `shell.go`: the format is
copied byte by byte and every `%d`, `%s`, `%q` is replaced by the rendering of the next
operand. Any other directive is outside this model and is copied unchanged. -/
def Sprintf : List Nat → List Arg → List Nat
  | [], _ => []
  | [c], _ => [c]
  | c :: v :: fmt, args =>
    if c = 37 then
      match args with
      | a :: args1 =>
        match verb v a with
        | some out => out ++ Sprintf fmt args1
        | none => c :: v :: Sprintf fmt args
      | [] => c :: v :: Sprintf fmt args
    else c :: Sprintf (v :: fmt) args

/-- A Go `error` value, identified with the text its `Error` method returns. -/
structure GoError where
  text : List Nat
  deriving DecidableEq, Repr

/-- The function `fmt.Errorf`. -/
def Errorf (format : List Nat) (args : List Arg) : GoError := ⟨Sprintf format args⟩

/-- The function `bytes.Split` for a one-byte separator. -/
def Split (s : List Nat) (sep : Nat) : List (List Nat) :=
  match s with
  | [] => [[]]
  | c :: t =>
    if c = sep then [] :: Split t sep
    else
      match Split t sep with
      | [] => [[c]]
      | h :: r => (c :: h) :: r

/-- The slice expression `s[lo:hi]`; `none` is a run-time panic. Go checks `hi` against the
capacity; checking against the length is at least as strict. -/
def slice {α : Type} (s : List α) (lo hi : Int) : Option (List α) :=
  if 0 ≤ lo ∧ lo ≤ hi ∧ hi ≤ (s.length : Int) then some ((s.take hi.toNat).drop lo.toNat)
  else none

/-- The slice expression `s[lo:]`. -/
def sliceFrom {α : Type} (s : List α) (lo : Int) : Option (List α) :=
  slice s lo s.length

/-- The slice expression `s[:hi]`. -/
def sliceTo {α : Type} (s : List α) (hi : Int) : Option (List α) :=
  slice s 0 hi

/-- The index expression `s[i]` for an `int` index. -/
def index {α : Type} (s : List α) (i : Int) : Option α :=
  if 0 ≤ i then s[i.toNat]? else none

/-! ## Constants of `shell.go` -/

/-- Opening part of the marker, `__@@GOSH@@__{{`. -/
def GOSH_beg : List Nat := ascii "__@@GOSH@@__\x7b\x7b"

/-- Closing part of the marker, `}}`. -/
def GOSH_end : List Nat := ascii "\x7d\x7d"

/-- The constant `_GOSH_feed = "echo __@@GOSH@@__{{%d:$?}}"`. -/
def _GOSH_feed : List Nat := ascii "echo __@@GOSH@@__\x7b\x7b%d:$?\x7d\x7d"

/-- The constant `_BUFSZ = 2 << 8`. -/
def _BUFSZ : Nat := 2 <<< 8

/-! ## UTF-8 decoding, as the regexp engine steps through a byte slice -/

/-- The replacement rune U+FFFD returned for an invalid encoding. -/
def RuneError : Nat := 65533

/-- Continuation byte, 0x80 to 0xBF. -/
def isCont (b : Nat) : Bool := 128 ≤ b && b ≤ 191

/-- The function `utf8.DecodeRune`: the rune at the head of `p` and its width in bytes. An
invalid or truncated encoding decodes to `RuneError` with width 1. -/
def DecodeRune (p : List Nat) : Nat × Nat :=
  match p with
  | [] => (RuneError, 0)
  | p0 :: t =>
    if p0 < 128 then (p0, 1)
    else if p0 < 194 then (RuneError, 1)
    else if p0 < 224 then
      match t with
      | b1 :: _ => if isCont b1 then ((p0 % 32) * 64 + b1 % 64, 2) else (RuneError, 1)
      | _ => (RuneError, 1)
    else if p0 < 240 then
      match t with
      | b1 :: b2 :: _ =>
        if (if p0 = 224 then 160 else 128) ≤ b1 ∧ b1 ≤ (if p0 = 237 then 159 else 191) then
          if isCont b2 then ((p0 % 16) * 4096 + (b1 % 64) * 64 + b2 % 64, 3)
          else (RuneError, 1)
        else (RuneError, 1)
      | _ => (RuneError, 1)
    else if p0 < 245 then
      match t with
      | b1 :: b2 :: b3 :: _ =>
        if (if p0 = 240 then 144 else 128) ≤ b1 ∧ b1 ≤ (if p0 = 244 then 143 else 191) then
          if isCont b2 then
            if isCont b3 then
              ((p0 % 8) * 262144 + (b1 % 64) * 4096 + (b2 % 64) * 64 + b3 % 64, 4)
            else (RuneError, 1)
          else (RuneError, 1)
        else (RuneError, 1)
      | _ => (RuneError, 1)
    else (RuneError, 1)

/-! ## Regular expressions -/

/-- Syntax of the regular expressions used by `shell.go`. -/
inductive Regex where
  | empty
  | lit (c : Nat)
  | digit
  | anyNotNL
  | bol
  | seq (a b : Regex)
  | alt (a b : Regex)
  | star (a : Regex)
  | plusLazy (a : Regex)
  | group (k : Nat) (a : Regex)

/-- Capture slots: slot `2k` is the start and slot `2k+1` the end of group `k`; a group
that took no part in the match has `-1` in both. -/
abbrev Caps := Nat → Int

/-- A matcher thread: position in the text, the text from there on, the capture slots. -/
structure St where
  pos : Nat
  rest : List Nat
  cap : Caps

/-- Consume one rune that satisfies `p`. -/
def stepRune (p : Nat → Bool) (st : St) : List St :=
  match st.rest with
  | [] => []
  | _ :: _ =>
    if p (DecodeRune st.rest).1 then
      [{ pos := st.pos + (DecodeRune st.rest).2, rest := st.rest.drop (DecodeRune st.rest).2,
         cap := st.cap }]
    else []

/-- The thread `st1` has consumed text since `st`. -/
def progress (st st1 : St) : Bool := st1.rest.length < st.rest.length

/-- Greedy `a*`: one more iteration is preferred to stopping. Every iteration consumes at
least one byte, so the length of the remaining text bounds the number of iterations. -/
def starLoop (body : St → List St) : Nat → St → List St
  | 0, st => [st]
  | n + 1, st => ((body st).filter (progress st)).flatMap (starLoop body n) ++ [st]

/-- Non-greedy `a+?`: after an iteration, stopping is preferred to one more iteration. -/
def plusLazyLoop (body : St → List St) : Nat → St → List St
  | 0, _ => []
  | n + 1, st =>
    (body st).flatMap fun st1 =>
      st1 :: (if progress st st1 then plusLazyLoop body n st1 else [])

/-- Write one capture slot. -/
def setCap (c : Caps) (k : Nat) (v : Int) : Caps := fun j => if j = k then v else c j

/-- Record group `k` as the text between thread `st` and thread `st1`. -/
def setGroup (k : Nat) (st st1 : St) : St :=
  { st1 with cap := setCap (setCap st1.cap (2 * k) st.pos) (2 * k + 1) st1.pos }

/-- All ways the expression matches at a thread, most preferred first. -/
def run : Regex → St → List St
  | .empty, st => [st]
  | .lit c, st => stepRune (fun r => r == c) st
  | .digit, st => stepRune (fun r => 48 ≤ r && r ≤ 57) st
  | .anyNotNL, st => stepRune (fun r => r != 10) st
  | .bol, st => if st.pos = 0 then [st] else []
  | .seq a b, st => (run a st).flatMap (run b)
  | .alt a b, st => run a st ++ run b st
  | .star a, st => starLoop (run a) st.rest.length st
  | .plusLazy a, st => plusLazyLoop (run a) (st.rest.length + 1) st
  | .group k a, st => (run a st).map (setGroup k st)

/-- Number of capturing groups. -/
def Regex.numSubexp : Regex → Nat
  | .seq a b => max a.numSubexp b.numSubexp
  | .alt a b => max a.numSubexp b.numSubexp
  | .star a => a.numSubexp
  | .plusLazy a => a.numSubexp
  | .group k a => max k a.numSubexp
  | _ => 0

/-- A run of literal bytes followed by `k`. -/
def lits (bs : List Nat) (k : Regex) : Regex := bs.foldr (fun c r => .seq (.lit c) r) k

/-- Unanchored search: the leftmost start position that has a match, and at that position
the most preferred match. The result lists the bounds of the whole match and of every
group. -/
def search (re : Regex) (ngroups : Nat) : Nat → Nat → List Nat → Option (List Int)
  | 0, _, _ => none
  | n + 1, pos, rest =>
    match (run re { pos := pos, rest := rest, cap := fun _ => -1 }).head? with
    | some st =>
      some ((pos : Int) :: (st.pos : Int) :: (List.range (2 * ngroups)).map fun j => st.cap (j + 2))
    | none =>
      match rest with
      | [] => none
      | _ :: _ => search re ngroups n (pos + (DecodeRune rest).2) (rest.drop (DecodeRune rest).2)

/-- The method `(*Regexp).FindSubmatchIndex`; `none` is the nil slice. -/
def Regex.FindSubmatchIndex (re : Regex) (b : List Nat) : Option (List Int) :=
  search re re.numSubexp (b.length + 1) 0 b

/-- The method `(*Regexp).Match`. -/
def Regex.Match (re : Regex) (b : List Nat) : Bool := (re.FindSubmatchIndex b).isSome

/-- The part `__@@GOSH@@__{{(\d+?:\d+?)}}` common to both expressions, `k` being the number
of its group. -/
def markerRe (k : Nat) : Regex :=
  lits GOSH_beg
    (.seq (.group k (.seq (.plusLazy .digit) (.seq (.lit 58) (.plusLazy .digit))))
      (lits GOSH_end .empty))

/-- The expression `(?P<name>(.|\n)*)__@@GOSH@@__{{(\d+?:\d+?)}}`. -/
def gosh_re : Regex :=
  .seq (.group 1 (.star (.group 2 (.alt .anyNotNL (.lit 10))))) (markerRe 3)

/-- The expression `^__@@GOSH@@__{{(\d+?:\d+?)}}`. -/
def gosh_re2 : Regex := .seq .bol (markerRe 1)

/-! ## Request framing: `gosh_feed`, `Shell.id`, `Shell.send` -/

/-- The result of a Go `int` computation: the value reduced to 64-bit two's complement. -/
def wrapInt (x : Int) : Int :=
  (x + 9223372036854775808) % 18446744073709551616 - 9223372036854775808

/-- The largest Go `int`, `2^63 - 1`. -/
def maxInt : Int := 9223372036854775807

/-- The function `gosh_feed`. -/
def gosh_feed (i : Int) : List Nat := Sprintf _GOSH_feed [.int i]

/-- The type `response`. -/
structure response where
  id : Int
  buf : List Nat
  err : Option GoError
  deriving DecidableEq

/-- What the caller side acts on: the package variable `g_counter`, the values sent on the
channel `sh.icmd` (oldest first) and the arguments of the `Write` calls on `sh.stdin`
(oldest first). -/
structure World where
  g_counter : Int
  icmd : List Int
  stdin : List (List Nat)

/-- The package starts with `var g_counter = 0` and nothing sent or written. -/
def World.init : World := { g_counter := 0, icmd := [], stdin := [] }

/-- The method `Shell.id`: increment `g_counter`, send it on `sh.icmd`, return it. -/
def Shell.id (w : World) : Int × World :=
  let c := wrapInt (w.g_counter + 1)
  (c, { w with g_counter := c, icmd := w.icmd ++ [c] })

/-- The method `Shell.send`. The outcome of the `Write` on `sh.stdin` is `werr`; when the
write succeeds the method returns `resp`, the value received from the channel `sh.resp`. -/
def Shell.send (w : World) (cmd : List Nat) (werr : Option GoError) (resp : response) :
    response × World :=
  let r := Shell.id w
  let i := r.1
  let req := Sprintf (ascii "%s\n%s\n") [.str cmd, .str (gosh_feed i)]
  let w2 := { r.2 with stdin := r.2.stdin ++ [req] }
  match werr with
  | some e => ({ id := i, buf := [], err := some e }, w2)
  | none => (resp, w2)

/-- Ids returned by `n` successive calls of `Shell.id`, with the final state. -/
def idCalls : Nat → World → List Int × World
  | 0, w => ([], w)
  | n + 1, w =>
    let r := Shell.id w
    let rs := idCalls n r.2
    (r.1 :: rs.1, rs.2)

/-! ## The reader goroutine of `New` -/

/-- What one call of `sh.stdout.Read` returns: the bytes the reader has to hand over and
the error. -/
structure ReadResult where
  data : List Nat
  err : Option GoError
  deriving DecidableEq

/-- The call `Read(p)`: the reader stores its bytes at the start of `p`, at most `len(p)`
of them, and returns their number. The result is the content of `p` after the call, the
number `n`, and the error. -/
def Read (p : List Nat) (r : ReadResult) : List Nat × Nat × Option GoError :=
  let n := min r.data.length p.length
  (r.data.take n ++ p.drop n, n, r.err)

/-- Lines 100 to 111, without the statement `rem = rem[:0]`: the buffer is a copy of `rem`
extended by `_BUFSZ` zero bytes, one `Read` fills the buffer from its start, and the buffer
is cut to the `n` bytes read. The result is the buffer and the error. -/
def firstRead (rem : List Nat) (r : ReadResult) : List Nat × Option GoError :=
  let buf := rem ++ List.replicate _BUFSZ 0
  let res := Read buf r
  (res.1.take res.2.1, res.2.2)

/-- Lines 113 to 124: while `gosh_re` does not match, read `_BUFSZ` more bytes and append
them; a read error ends the loop. The result is `none` when the scheduled reads are used
up before the loop ends: the next `Read` never returns. -/
def accumulate : List ReadResult → List Nat → Option GoError →
    Option (List Nat × Option GoError × List ReadResult)
  | reads, buf, err =>
    if gosh_re.Match buf then some (buf, err, reads)
    else
      match reads with
      | [] => none
      | r :: rest =>
        let res := Read (List.replicate _BUFSZ 0) r
        let buf1 := buf ++ res.1.take res.2.1
        if res.2.2.isSome then some (buf1, res.2.2, rest)
        else accumulate rest buf1 err

/-- Lines 137 to 142 and 164 to 169: split `circ` at the colon, take field 1, and turn a
return code other than `0` into an error. -/
def classify (circ : List Nat) : Option (Option GoError) := do
  let tmp := Split circ 58
  let ret ← tmp[1]?
  if ret ≠ ascii "0" then
    pure (some (Errorf (ascii "error: %q") [.bytes ret]))
  else
    pure none

/-- Lines 128 to 142, the branch taken when `gosh_re2` matches. The result is the new
`buf`, `err` and `rem`. -/
def decodeRe2 (buf rem : List Nat) : Option (List Nat × Option GoError × List Nat) := do
  let all ← gosh_re2.FindSubmatchIndex buf
  let idx ← sliceFrom all 2
  let i0 ← idx[0]?
  let i1 ← idx[1]?
  let circ ← slice buf i0 i1
  let tl ← sliceFrom buf (i1 + 2)
  let err ← classify circ
  pure ([], err, rem ++ tl)

/-- Lines 151 to 154: the loop over the pairs of `msg_idx`. Each round evaluates the slice
`buf[idx[ii]:idx[ii+1]]` (the operand of the trace call) and sets `msg_end`. -/
def msgLoop (buf : List Nat) (idx msg_idx : List Int) : Nat → Nat → Int → Option Int
  | 0, _, msg_end => some msg_end
  | n + 1, ii, msg_end =>
    if ii < msg_idx.length then do
      let a ← idx[ii]?
      let b ← idx[ii + 1]?
      let _ ← slice buf a b
      let e ← msg_idx[ii + 1]?
      msgLoop buf idx msg_idx n (ii + 2) e
    else some msg_end

/-- Lines 145 to 169, the branch taken when `gosh_re2` does not match. -/
def decodeRe (buf rem : List Nat) : Option (List Nat × Option GoError × List Nat) := do
  let all ← gosh_re.FindSubmatchIndex buf
  let idx ← sliceFrom all 2
  let msg_idx ← sliceTo idx ((idx.length : Int) - 2)
  let msg_beg ← msg_idx[0]?
  let msg_end ← msgLoop buf idx msg_idx msg_idx.length 0 msg_beg
  let msg ← slice buf msg_beg msg_end
  let rc_beg ← index idx ((idx.length : Int) - 2)
  let rc_end ← index idx ((idx.length : Int) - 1)
  let circ ← slice buf rc_beg rc_end
  let i3 ← idx[3]?
  let tl ← sliceFrom buf (i3 + 2)
  let err ← classify circ
  pure (msg, err, rem ++ tl)

/-- Lines 125 to 171: the decode step on the accumulated buffer. With a read error the
buffer, the error and `rem` are left as they are. -/
def decodeStep (buf : List Nat) (err : Option GoError) (rem : List Nat) :
    Option (List Nat × Option GoError × List Nat) :=
  match err with
  | some e => some (buf, some e, rem)
  | none => if gosh_re2.Match buf then decodeRe2 buf rem else decodeRe buf rem

/-- Lines 100 to 124: the first read and the accumulation loop. The result is the
accumulated buffer, the error and the reads not yet consumed; `none` when a `Read` never
returns. -/
def accumulated (rem : List Nat) (reads : List ReadResult) :
    Option (List Nat × Option GoError × List ReadResult) :=
  match reads with
  | [] => none
  | r :: rest => accumulate rest (firstRead rem r).1 (firstRead rem r).2

/-- How one round of the reader goroutine ends. -/
inductive Outcome (α : Type) where
  | done (a : α)
  | panic
  | blocked
  deriving DecidableEq

/-- Lines 96 to 173: one round of the reader goroutine for the id `i` received from
`sh.icmd`, started with remainder `rem` and the scheduled reads. It ends with the response
sent on `sh.resp`, the new remainder and the reads not yet consumed. Line 103 empties `rem`
before the first read, so the decode step appends to the empty remainder. -/
def serve (i : Int) (rem : List Nat) (reads : List ReadResult) :
    Outcome (response × List Nat × List ReadResult) :=
  match accumulated rem reads with
  | none => .blocked
  | some (buf, err, rest1) =>
    match decodeStep buf err (rem.take 0) with
    | none => .panic
    | some (buf1, err1, rem1) => .done ({ id := i, buf := buf1, err := err1 }, rem1, rest1)

/-! ## The marker, as the specification describes it -/

/-- The marker `__@@GOSH@@__{{i:rc}}`. -/
def marker (i rc : List Nat) : List Nat := GOSH_beg ++ i ++ 58 :: rc ++ GOSH_end

/-- A non-empty string of decimal digits. -/
def IsDigits (ds : List Nat) : Prop := ds ≠ [] ∧ ∀ b ∈ ds, isDigit b = true

instance (ds : List Nat) : Decidable (IsDigits ds) := by
  unfold IsDigits; infer_instance

/-- Parse a marker at the head of `s`: its two digit fields and the bytes after it. The
text has to start with `__@@GOSH@@__{{`, a non-empty digit run, a colon, a second non-empty
digit run and `}}`. -/
def splitMarker (s : List Nat) : Option (List Nat × List Nat × List Nat) :=
  let s1 := s.drop GOSH_beg.length
  let s2 := s1.dropWhile isDigit
  let s3 := s2.drop 1
  let s4 := s3.dropWhile isDigit
  if GOSH_beg.isPrefixOf s ∧ s1.takeWhile isDigit ≠ [] ∧ s2.head? = some 58 ∧
      s3.takeWhile isDigit ≠ [] ∧ GOSH_end.isPrefixOf s4 then
    some (s1.takeWhile isDigit, s3.takeWhile isDigit, s4.drop GOSH_end.length)
  else none

/-- The text `s` begins with a marker. -/
def beginsWithMarker (s : List Nat) : Bool := (splitMarker s).isSome

/-- A marker occurs in `buf` at offset `p`. -/
def markerAt (buf : List Nat) (p : Nat) : Bool := beginsWithMarker (buf.drop p)

/-- Some marker occurs in `buf`. -/
def containsMarker (buf : List Nat) : Bool := (List.range buf.length).any (markerAt buf)

/-- Reads that return the given chunks, in order, each without error. -/
def okReads (cs : List (List Nat)) : List ReadResult := cs.map fun c => ⟨c, none⟩

/-- The last marker occurrence in `buf` is at offset `p`. -/
def LastMarkerAt (buf : List Nat) (p : Nat) : Prop :=
  markerAt buf p = true ∧ ∀ q < buf.length, p < q → markerAt buf q = false

instance (buf : List Nat) (p : Nat) : Decidable (LastMarkerAt buf p) := by
  unfold LastMarkerAt; infer_instance

/-- The error that a return code `rc` other than `0` is turned into, `error: "<rc>"`. -/
def exitError (rc : List Nat) : Option GoError :=
  if rc = ascii "0" then none else some ⟨ascii "error: \"" ++ rc ++ ascii "\""⟩

/-- The buffer is decoded at offset `p`: at the start when it begins with a marker, at its
last marker occurrence otherwise. -/
def DecodedAt (buf : List Nat) (p : Nat) : Prop :=
  (beginsWithMarker buf = true ∧ p = 0) ∨ (beginsWithMarker buf = false ∧ LastMarkerAt buf p)

/-! ## Auxiliary definitions for the proofs about the matcher -/

/-- Threads left by `\d+?` on the text `s`: one per non-empty prefix of the leading digit
run, shortest first. -/
def digitThreads (pos : Nat) (cap : Caps) : List Nat → List St
  | [] => []
  | b :: t => if isDigit b then ⟨pos + 1, t, cap⟩ :: digitThreads (pos + 1) cap t else []

/-- The group `(.|\n)` inside the star of `gosh_re`. -/
def anyRune : Regex := .group 2 (.alt .anyNotNL (.lit 10))

set_option maxRecDepth 1000000

/-! ## Facts about the constants -/

theorem GOSH_beg_eq :
    GOSH_beg = [95, 95, 64, 64, 71, 79, 83, 72, 64, 64, 95, 95, 123, 123] := by decide

theorem GOSH_end_eq : GOSH_end = [125, 125] := by decide

theorem GOSH_beg_length : GOSH_beg.length = 14 := by decide

/-! ## Facts about `DecodeRune` -/

theorem DecodeRune_ascii (b : Nat) (t : List Nat) (h : b < 128) :
    DecodeRune (b :: t) = (b, 1) := by
  simp [DecodeRune, h]

theorem DecodeRune_fst_ge (b : Nat) (t : List Nat) (h : 128 ≤ b) :
    128 ≤ (DecodeRune (b :: t)).1 := by
  unfold DecodeRune
  simp only [RuneError, isCont, Bool.and_eq_true, decide_eq_true_eq]
  split_ifs <;> (try split) <;> (try split_ifs) <;> dsimp only <;> omega

theorem DecodeRune_snd_pos (b : Nat) (t : List Nat) : 1 ≤ (DecodeRune (b :: t)).2 := by
  unfold DecodeRune
  dsimp only
  split_ifs <;> (try split) <;> (try split_ifs) <;> simp

theorem DecodeRune_snd_le (b : Nat) (t : List Nat) :
    (DecodeRune (b :: t)).2 ≤ (b :: t).length := by
  unfold DecodeRune
  dsimp only
  split_ifs <;> (try split) <;> (try split_ifs) <;> simp

/-- Every byte of an encoding after the first is a continuation byte. -/
theorem DecodeRune_cont (s : List Nat) (j : Nat) (h0 : 0 < j) (hj : j < (DecodeRune s).2) :
    128 ≤ s.getD j 0 := by
  rcases s with _ | ⟨p0, _ | ⟨b1, _ | ⟨b2, _ | ⟨b3, t⟩⟩⟩⟩ <;>
    simp only [DecodeRune, isCont, Bool.and_eq_true, decide_eq_true_eq] at hj <;>
    (try split_ifs at hj) <;> (try dsimp only at hj) <;>
    first
      | omega
      | (interval_cases j <;> simp <;> omega)

/-- A rune that starts before an ASCII byte ends at or before it. -/
theorem DecodeRune_snd_le_of_ascii (pre tl : List Nat) (b : Nat) (hpre : pre ≠ [])
    (hb : b < 128) : (DecodeRune (pre ++ b :: tl)).2 ≤ pre.length := by
  by_contra hlt
  have hpos : 0 < pre.length := List.length_pos.mpr hpre
  have hge := DecodeRune_cont (pre ++ b :: tl) pre.length hpos (by omega)
  rw [List.getD_eq_getElem?_getD, List.getElem?_append_right (le_refl _)] at hge
  simp at hge
  omega

/-! ## Single steps of the matcher -/

theorem stepRune_nil (p : Nat → Bool) (pos : Nat) (cap : Caps) :
    stepRune p ⟨pos, [], cap⟩ = [] := rfl

theorem stepRune_ascii (p : Nat → Bool) (pos b : Nat) (t : List Nat) (cap : Caps)
    (hb : b < 128) :
    stepRune p ⟨pos, b :: t, cap⟩ = if p b then [⟨pos + 1, t, cap⟩] else [] := by
  simp [stepRune, DecodeRune_ascii b t hb]

theorem stepRune_high (p : Nat → Bool) (pos b : Nat) (t : List Nat) (cap : Caps)
    (hb : 128 ≤ b) (hp : ∀ r, 128 ≤ r → p r = false) :
    stepRune p ⟨pos, b :: t, cap⟩ = [] := by
  simp [stepRune, hp _ (DecodeRune_fst_ge b t hb)]

theorem run_lit_cons (c pos b : Nat) (t : List Nat) (cap : Caps) (hc : c < 128) :
    run (.lit c) ⟨pos, b :: t, cap⟩ = if b = c then [⟨pos + 1, t, cap⟩] else [] := by
  rcases Nat.lt_or_ge b 128 with hb | hb
  · simp [run, stepRune_ascii _ pos b t cap hb]
  · rw [run, stepRune_high _ pos b t cap hb]
    · have : b ≠ c := by omega
      simp [this]
    · intro r hr
      have : r ≠ c := by omega
      simpa using this

theorem run_lit_nil (c pos : Nat) (cap : Caps) : run (.lit c) ⟨pos, [], cap⟩ = [] := rfl

theorem run_digit_cons (pos b : Nat) (t : List Nat) (cap : Caps) :
    run .digit ⟨pos, b :: t, cap⟩ = if isDigit b then [⟨pos + 1, t, cap⟩] else [] := by
  rcases Nat.lt_or_ge b 128 with hb | hb
  · simp [run, stepRune_ascii _ pos b t cap hb, isDigit]
  · rw [run, stepRune_high _ pos b t cap hb]
    · have : isDigit b = false := by simp [isDigit]; omega
      simp [this]
    · intro r hr
      simp; omega

theorem run_digit_nil (pos : Nat) (cap : Caps) : run .digit ⟨pos, [], cap⟩ = [] := rfl

/-- A run of ASCII literals matches exactly when the text starts with them. -/
theorem run_lits (bs : List Nat) (hbs : ∀ b ∈ bs, b < 128) (k : Regex) (pos : Nat)
    (s : List Nat) (cap : Caps) :
    run (lits bs k) ⟨pos, s, cap⟩ =
      if bs.isPrefixOf s then run k ⟨pos + bs.length, s.drop bs.length, cap⟩ else [] := by
  induction bs generalizing pos s with
  | nil => simp [lits]
  | cons c cs ih =>
    have hc : c < 128 := hbs c (by simp)
    have hcs : ∀ b ∈ cs, b < 128 := fun b hb => hbs b (by simp [hb])
    have hl : lits (c :: cs) k = .seq (.lit c) (lits cs k) := rfl
    rw [hl, run]
    cases s with
    | nil => simp [run_lit_nil]
    | cons b t =>
      rw [run_lit_cons c pos b t cap hc]
      by_cases hbc : b = c
      · subst hbc
        simp [ih hcs, Nat.add_assoc, Nat.add_comm 1]
      · have : c ≠ b := fun h => hbc h.symm
        simp [hbc, this]

theorem plusLazyLoop_digit (n pos : Nat) (s : List Nat) (cap : Caps) (hn : s.length < n) :
    plusLazyLoop (run .digit) n ⟨pos, s, cap⟩ = digitThreads pos cap s := by
  induction n generalizing pos s with
  | zero => omega
  | succ n ih =>
    cases s with
    | nil => simp [plusLazyLoop, run_digit_nil, digitThreads]
    | cons b t =>
      simp only [plusLazyLoop, run_digit_cons, digitThreads]
      by_cases hb : isDigit b = true
      · have hlen : t.length < n := by simp at hn; omega
        simp [hb, progress, ih (pos + 1) t hlen]
      · simp [hb]

theorem run_plusLazy_digit (pos : Nat) (s : List Nat) (cap : Caps) :
    run (.plusLazy .digit) ⟨pos, s, cap⟩ = digitThreads pos cap s := by
  rw [run]
  exact plusLazyLoop_digit _ pos s cap (Nat.lt_succ_self _)

/-- A continuation that fails in front of a digit sees only the thread after the whole
digit run. -/
theorem digitThreads_flatMap {β : Type} (K : St → List β)
    (hK : ∀ p b t c, isDigit b = true → K ⟨p, b :: t, c⟩ = [])
    (pos : Nat) (cap : Caps) (s : List Nat) :
    (digitThreads pos cap s).flatMap K =
      if s.takeWhile isDigit = [] then []
      else K ⟨pos + (s.takeWhile isDigit).length, s.dropWhile isDigit, cap⟩ := by
  induction s generalizing pos with
  | nil => simp [digitThreads]
  | cons b t ih =>
    by_cases hb : isDigit b = true
    · simp only [digitThreads, hb, if_true, List.flatMap_cons, ih, List.takeWhile_cons,
        List.dropWhile_cons]
      cases t with
      | nil => simp
      | cons b1 t1 =>
        by_cases hb1 : isDigit b1 = true
        · simp [hb1, hK, Nat.add_assoc, Nat.add_comm 1]
        · simp [hb1]
    · simp [digitThreads, hb]

theorem run_GOSH_end (p b : Nat) (t : List Nat) (c : Caps) (hb : isDigit b = true) :
    run (lits GOSH_end .empty) ⟨p, b :: t, c⟩ = [] := by
  rw [run_lits _ (by decide)]
  have : b ≠ 125 := by
    intro h; subst h; simp [isDigit] at hb
  simp [GOSH_end_eq, List.isPrefixOf, this.symm]

set_option maxHeartbeats 1000000 in
/-- The marker expression has the match that `splitMarker` describes, and no other. -/
theorem run_markerRe (k pos : Nat) (s : List Nat) (cap : Caps) :
    run (markerRe k) ⟨pos, s, cap⟩ =
      match splitMarker s with
      | some (i, rc, post) =>
        [⟨pos + 14 + i.length + 1 + rc.length + 2, post,
          setCap (setCap cap (2 * k) ((pos + 14 : Nat) : Int)) (2 * k + 1)
            ((pos + 14 + i.length + 1 + rc.length : Nat) : Int)⟩]
      | none => [] := by
  unfold markerRe splitMarker
  rw [run_lits _ (by decide)]
  simp only [GOSH_beg_length]
  by_cases hp : GOSH_beg.isPrefixOf s = true
  · simp only [hp, if_true, true_and]
    generalize s.drop 14 = s1
    rw [run, run, List.flatMap_map, run, run_plusLazy_digit]
    rw [List.flatMap_assoc, digitThreads_flatMap]
    · by_cases h1 : s1.takeWhile isDigit = []
      · simp [h1]
      · simp only [h1, if_false, ne_eq, not_false_eq_true, true_and]
        generalize s1.dropWhile isDigit = s2
        cases s2 with
        | nil =>
          rw [run, run_lit_nil]
          simp
        | cons b2 s3 =>
          rw [run, run_lit_cons _ _ _ _ _ (by decide)]
          by_cases hb2 : b2 = 58
          · subst hb2
            simp only [if_true, List.flatMap_cons, List.flatMap_nil, List.append_nil,
              run_plusLazy_digit, List.head?_cons, List.drop_succ_cons, List.drop_zero,
              true_and]
            rw [digitThreads_flatMap]
            · by_cases h3 : s3.takeWhile isDigit = []
              · simp [h3]
              · simp only [h3, if_false, ne_eq, not_false_eq_true, true_and]
                rw [run_lits _ (by decide)]
                simp only [setGroup]
                simp only [GOSH_end_eq]
                by_cases h4 : [125, 125] <+: s3.dropWhile isDigit
                · simp [h4, run, Nat.add_assoc]
                · simp [h4]
            · intro p b t c hb
              exact run_GOSH_end p b t _ hb
          · simp [hb2]
    · intro p b t c hb
      rw [run, run_lit_cons _ _ _ _ _ (by decide)]
      have : b ≠ 58 := by
        intro h; subst h; simp [isDigit] at hb
      simp [this]
  · simp [hp]

/-! ## The marker grammar -/

theorem takeWhile_digits_append (i : List Nat) (x : Nat) (t : List Nat)
    (hi : ∀ b ∈ i, isDigit b = true) (hx : isDigit x = false) :
    (i ++ x :: t).takeWhile isDigit = i ∧ (i ++ x :: t).dropWhile isDigit = x :: t := by
  induction i with
  | nil => simp [hx]
  | cons b i ih =>
    have hb : isDigit b = true := hi b (by simp)
    have := ih (fun c hc => hi c (by simp [hc]))
    simp [hb, this]

theorem marker_append (i rc post : List Nat) :
    marker i rc ++ post = GOSH_beg ++ (i ++ 58 :: (rc ++ 125 :: 125 :: post)) := by
  simp [marker, GOSH_end_eq]

theorem marker_length (i rc : List Nat) :
    (marker i rc).length = 14 + i.length + 1 + rc.length + 2 := by
  simp [marker, GOSH_end_eq, GOSH_beg_length]; omega

theorem splitMarker_marker (i rc post : List Nat) (hi : IsDigits i) (hrc : IsDigits rc) :
    splitMarker (marker i rc ++ post) = some (i, rc, post) := by
  have h1 := takeWhile_digits_append i 58 (rc ++ 125 :: 125 :: post) hi.2 (by decide)
  have h2 := takeWhile_digits_append rc 125 (125 :: post) hrc.2 (by decide)
  have hd : (GOSH_beg ++ (i ++ 58 :: (rc ++ 125 :: 125 :: post))).drop 14
      = i ++ 58 :: (rc ++ 125 :: 125 :: post) := by
    rw [← GOSH_beg_length, List.drop_left]
  have hp : GOSH_beg.isPrefixOf (GOSH_beg ++ (i ++ 58 :: (rc ++ 125 :: 125 :: post))) = true := by
    rw [List.isPrefixOf_iff_prefix]; exact List.prefix_append _ _
  rw [marker_append]
  unfold splitMarker
  simp only [GOSH_beg_length, hd, h1.1, h1.2, hp, List.head?_cons, List.drop_succ_cons,
    List.drop_zero, h2.1, h2.2]
  simp [GOSH_end_eq, hi.1, hrc.1]

theorem splitMarker_some (s i rc post : List Nat) (h : splitMarker s = some (i, rc, post)) :
    s = marker i rc ++ post ∧ IsDigits i ∧ IsDigits rc := by
  unfold splitMarker at h
  simp only [GOSH_beg_length] at h
  split_ifs at h with hc
  obtain ⟨hp, hi, h58, hrc, he⟩ := hc
  simp only [Option.some.injEq, Prod.mk.injEq] at h
  obtain ⟨rfl, rfl, rfl⟩ := h
  rw [List.isPrefixOf_iff_prefix] at hp he
  obtain ⟨t, ht⟩ := hp
  obtain ⟨u, hu⟩ := he
  have hd : s.drop 14 = t := by
    rw [← ht, ← GOSH_beg_length, List.drop_left]
  rw [hd] at hi h58 hrc hu ⊢
  have e1 : t = t.takeWhile isDigit ++ t.dropWhile isDigit :=
    (List.takeWhile_append_dropWhile isDigit t).symm
  have e2 : t.dropWhile isDigit = 58 :: (t.dropWhile isDigit).drop 1 := by
    cases hdw : t.dropWhile isDigit with
    | nil => simp [hdw] at h58
    | cons a r => simp [hdw] at h58; simp [h58]
  have e3 : (t.dropWhile isDigit).drop 1
      = ((t.dropWhile isDigit).drop 1).takeWhile isDigit
        ++ ((t.dropWhile isDigit).drop 1).dropWhile isDigit :=
    (List.takeWhile_append_dropWhile isDigit _).symm
  have hu2 : (((t.dropWhile isDigit).drop 1).dropWhile isDigit).drop GOSH_end.length = u := by
    rw [← hu, List.drop_left]
  refine ⟨?_, ⟨hi, fun b hb => (List.mem_takeWhile_imp hb)⟩,
    ⟨hrc, fun b hb => (List.mem_takeWhile_imp hb)⟩⟩
  rw [hu2]
  generalize ((t.dropWhile isDigit).drop 1) = s3 at *
  rw [← ht]
  conv_lhs => rw [e1, e2, e3, ← hu]
  simp [marker]

theorem beginsWithMarker_iff (s : List Nat) :
    beginsWithMarker s = true ↔
      ∃ i rc post, IsDigits i ∧ IsDigits rc ∧ s = marker i rc ++ post := by
  unfold beginsWithMarker
  constructor
  · intro h
    rw [Option.isSome_iff_exists] at h
    obtain ⟨⟨i, rc, post⟩, h⟩ := h
    obtain ⟨h1, h2, h3⟩ := splitMarker_some s i rc post h
    exact ⟨i, rc, post, h2, h3, h1⟩
  · rintro ⟨i, rc, post, hi, hrc, rfl⟩
    simp [splitMarker_marker i rc post hi hrc]

/-! ## The greedy payload group `(.|\n)*` -/

theorem run_anyRune_nil (pos : Nat) (cap : Caps) : run anyRune ⟨pos, [], cap⟩ = [] := rfl

/-- The group `(.|\n)` consumes exactly one rune, whatever it is. -/
theorem run_anyRune_cons (pos b : Nat) (t : List Nat) (cap : Caps) :
    run anyRune ⟨pos, b :: t, cap⟩ =
      [⟨pos + (DecodeRune (b :: t)).2, (b :: t).drop (DecodeRune (b :: t)).2,
        setCap (setCap cap 4 (pos : Int)) 5 ((pos + (DecodeRune (b :: t)).2 : Nat) : Int)⟩] := by
  unfold anyRune
  simp only [run]
  rcases Nat.lt_or_ge b 128 with hb | hb
  · simp only [stepRune_ascii _ _ _ _ _ hb, DecodeRune_ascii b t hb]
    by_cases h10 : b = 10
    · simp [h10, setGroup]
    · simp [h10, setGroup]
  · have hr := DecodeRune_fst_ge b t hb
    have hr10 : (DecodeRune (b :: t)).1 ≠ 10 := by omega
    simp [stepRune, hr10, setGroup]

theorem starLoop_nil (body : St → List St) (n pos : Nat) (cap : Caps)
    (hb : body ⟨pos, [], cap⟩ = []) : starLoop body n ⟨pos, [], cap⟩ = [⟨pos, [], cap⟩] := by
  cases n with
  | zero => rfl
  | succ n => simp [starLoop, hb]

theorem starLoop_anyRune_cons (n pos b : Nat) (t : List Nat) (cap : Caps) :
    starLoop (run anyRune) (n + 1) ⟨pos, b :: t, cap⟩ =
      starLoop (run anyRune) n
        ⟨pos + (DecodeRune (b :: t)).2, (b :: t).drop (DecodeRune (b :: t)).2,
          setCap (setCap cap 4 (pos : Int)) 5 ((pos + (DecodeRune (b :: t)).2 : Nat) : Int)⟩
        ++ [⟨pos, b :: t, cap⟩] := by
  have hw := DecodeRune_snd_pos b t
  have hl := DecodeRune_snd_le b t
  simp only [starLoop, run_anyRune_cons]
  have hprog : ∀ c1 : Caps, progress ⟨pos, b :: t, cap⟩
      ⟨pos + (DecodeRune (b :: t)).2, (b :: t).drop (DecodeRune (b :: t)).2, c1⟩ = true := by
    intro c1
    simp only [progress, List.length_drop, decide_eq_true_eq]
    simp only [List.length_cons] at hl ⊢
    omega
  simp [List.filter, hprog]

/-- Every thread of the star stands at a suffix of the text it started from. -/
theorem starLoop_anyRune_rest (n : Nat) (st st1 : St)
    (h : st1 ∈ starLoop (run anyRune) n st) : ∃ j, st1.rest = st.rest.drop j := by
  induction n generalizing st with
  | zero =>
    simp [starLoop] at h
    exact ⟨0, by simp [h]⟩
  | succ n ih =>
    obtain ⟨pos, s, cap⟩ := st
    cases s with
    | nil =>
      rw [starLoop_nil _ _ _ _ (run_anyRune_nil pos cap)] at h
      simp at h
      exact ⟨0, by simp [h]⟩
    | cons b t =>
      rw [starLoop_anyRune_cons] at h
      rcases List.mem_append.mp h with h | h
      · obtain ⟨j, hj⟩ := ih _ h
        exact ⟨(DecodeRune (b :: t)).2 + j, by rw [hj]; simp [List.drop_drop, Nat.add_comm]⟩
      · simp at h
        exact ⟨0, by simp [h]⟩

theorem setCap_setCap_45 (c : Caps) (a b a1 b1 : Int) :
    setCap (setCap (setCap (setCap c 4 a) 5 b) 4 a1) 5 b1 = setCap (setCap c 4 a1) 5 b1 := by
  funext j
  simp only [setCap]
  split_ifs <;> rfl

/-- The star is greedy: with a continuation `K` that fails at every later position, the
most preferred result is `K` run at the position `pre.length`, provided the byte there
is ASCII. Group 2 then holds the last rune of `pre`. -/
theorem starLoop_anyRune_last {β : Type} (K : St → List β) (b : Nat) (tl : List Nat)
    (hb : b < 128)
    (hK : ∀ q, 0 < q → ∀ p c, K ⟨p, (b :: tl).drop q, c⟩ = []) :
    ∀ (n : Nat) (pre : List Nat) (pos : Nat) (cap : Caps), (pre ++ b :: tl).length ≤ n →
      ∃ cap1 more,
        (starLoop (run anyRune) n ⟨pos, pre ++ b :: tl, cap⟩).flatMap K
          = K ⟨pos + pre.length, b :: tl, cap1⟩ ++ more ∧
        (pre = [] → cap1 = cap) ∧
        (pre ≠ [] → ∃ g : Nat, pos ≤ g ∧ g < pos + pre.length ∧
          cap1 = setCap (setCap cap 4 (g : Int)) 5 ((pos + pre.length : Nat) : Int)) := by
  intro n
  induction n with
  | zero => intro pre pos cap h; simp at h
  | succ n ih =>
    intro pre pos cap hlen
    cases pre with
    | nil =>
      refine ⟨cap, [], ?_, fun _ => rfl, fun h => absurd rfl h⟩
      simp only [List.nil_append, List.length_nil, Nat.add_zero, List.append_nil]
      rw [starLoop_anyRune_cons, List.flatMap_append, DecodeRune_ascii b tl hb]
      have : (starLoop (run anyRune) n
          ⟨pos + 1, (b :: tl).drop 1, setCap (setCap cap 4 (pos : Int)) 5 ((pos + 1 : Nat) : Int)⟩).flatMap K
          = [] := by
        rw [List.flatMap_eq_nil_iff]
        intro st1 hst1
        obtain ⟨j, hj⟩ := starLoop_anyRune_rest _ _ _ hst1
        obtain ⟨p1, r1, c1⟩ := st1
        simp only at hj
        rw [hj, List.drop_drop]
        exact hK (1 + j) (by omega) p1 c1
      rw [this]
      simp
    | cons a pre1 =>
      have hw := DecodeRune_snd_pos a (pre1 ++ b :: tl)
      have hle := DecodeRune_snd_le_of_ascii (a :: pre1) tl b (by simp) hb
      simp only [List.cons_append] at hle ⊢
      rw [starLoop_anyRune_cons, List.flatMap_append]
      generalize hwd : (DecodeRune (a :: (pre1 ++ b :: tl))).2 = w at *
      have hdrop : (a :: (pre1 ++ b :: tl)).drop w = (a :: pre1).drop w ++ b :: tl := by
        rw [← List.cons_append, List.drop_append_of_le_length hle]
      rw [hdrop]
      have hlen1 : ((a :: pre1).drop w ++ b :: tl).length ≤ n := by
        simp only [List.length_append, List.length_drop, List.length_cons] at hlen hle ⊢
        omega
      obtain ⟨cap1, more, heq, hnil, hcons⟩ := ih ((a :: pre1).drop w) (pos + w) _ hlen1
      have hposeq : pos + w + ((a :: pre1).drop w).length = pos + (a :: pre1).length := by
        simp only [List.length_drop]; omega
      rw [hposeq] at heq
      refine ⟨cap1, more ++ List.flatMap [St.mk pos (a :: (pre1 ++ b :: tl)) cap] K, ?_,
        fun h => absurd h (by simp), fun _ => ?_⟩
      · rw [heq, List.append_assoc]
      · by_cases hd : (a :: pre1).drop w = []
        · have hweq : w = (a :: pre1).length := by
            have := List.drop_eq_nil_iff.mp hd
            omega
          refine ⟨pos, le_refl _, ?_, ?_⟩
          · simp
          · rw [hnil hd, hweq]
        · obtain ⟨g, hg1, hg2, hg3⟩ := hcons hd
          refine ⟨g, by omega, by omega, ?_⟩
          rw [hg3, setCap_setCap_45, hposeq]

/-! ## What `FindSubmatchIndex` returns for the two expressions -/

theorem gosh_re_numSubexp : gosh_re.numSubexp = 3 := by decide

theorem gosh_re2_numSubexp : gosh_re2.numSubexp = 1 := by decide

theorem range_six : List.range 6 = [0, 1, 2, 3, 4, 5] := by decide

theorem range_two : List.range 2 = [0, 1] := by decide

theorem run_gosh_re (st : St) :
    run gosh_re st =
      (starLoop (run anyRune) st.rest.length st).flatMap
        (fun st1 => run (markerRe 3) (setGroup 1 st st1)) := by
  have h : gosh_re = .seq (.group 1 (.star anyRune)) (markerRe 3) := rfl
  rw [h, run, run, run, List.flatMap_map]

theorem run_gosh_re2 (st : St) :
    run gosh_re2 st = if st.pos = 0 then run (markerRe 1) st else [] := by
  have h : gosh_re2 = .seq .bol (markerRe 1) := rfl
  rw [h, run, run]
  split_ifs <;> simp

theorem splitMarker_nil : splitMarker [] = none := by decide

theorem splitMarker_head (s : List Nat) (h : splitMarker s ≠ none) :
    ∃ t, s = 95 :: t := by
  unfold splitMarker at h
  simp only [ne_eq, ite_eq_right_iff, Classical.not_imp] at h
  have hp := h.1.1
  rw [List.isPrefixOf_iff_prefix, GOSH_beg_eq] at hp
  obtain ⟨t, ht⟩ := hp
  exact ⟨_, ht.symm⟩

/-- Without a marker occurrence, `gosh_re` matches at no start position. -/
theorem search_gosh_re_none (n pos : Nat) (rest : List Nat)
    (h : ∀ q, splitMarker (rest.drop q) = none) : search gosh_re 3 n pos rest = none := by
  induction n generalizing pos rest with
  | zero => rfl
  | succ n ih =>
    have hrun : run gosh_re ⟨pos, rest, fun _ => -1⟩ = [] := by
      rw [run_gosh_re, List.flatMap_eq_nil_iff]
      intro st1 hst1
      obtain ⟨j, hj⟩ := starLoop_anyRune_rest _ _ _ hst1
      obtain ⟨p1, r1, c1⟩ := st1
      simp only at hj
      simp only [setGroup]
      rw [run_markerRe, hj, h j]
    simp only [search, hrun, List.head?_nil]
    cases rest with
    | nil => rfl
    | cons b t =>
      simp only
      apply ih
      intro q
      rw [List.drop_drop]
      exact h _

theorem find_gosh_re_none (buf : List Nat) (h : ∀ q, splitMarker (buf.drop q) = none) :
    gosh_re.FindSubmatchIndex buf = none := by
  unfold Regex.FindSubmatchIndex
  rw [gosh_re_numSubexp]
  exact search_gosh_re_none _ _ _ h

/-- The match of `gosh_re` ends at the last marker occurrence: group 1 is the text before
it, group 2 the last rune of that text, group 3 the two digit fields. -/
theorem find_gosh_re (buf : List Nat) (p : Nat) (i rc post : List Nat)
    (hm : splitMarker (buf.drop p) = some (i, rc, post))
    (hlast : ∀ q, p < q → splitMarker (buf.drop q) = none) :
    ∃ g2s g2e : Int,
      gosh_re.FindSubmatchIndex buf =
        some [0, ((p + 14 + i.length + 1 + rc.length + 2 : Nat) : Int), 0, (p : Int),
          g2s, g2e, ((p + 14 : Nat) : Int), ((p + 14 + i.length + 1 + rc.length : Nat) : Int)] ∧
      (p = 0 → g2s = -1 ∧ g2e = -1) ∧
      (0 < p → 0 ≤ g2s ∧ g2s < (p : Int) ∧ g2e = (p : Int)) := by
  obtain ⟨tl, htl⟩ := splitMarker_head (buf.drop p) (by rw [hm]; simp)
  have hple : p ≤ buf.length := by
    by_contra hlt
    rw [List.drop_eq_nil_of_le (by omega)] at htl
    simp at htl
  have hbuf : buf = buf.take p ++ 95 :: tl := by
    rw [← htl, List.take_append_drop]
  have htake : (buf.take p).length = p := by simp [hple]
  set K : St → List St := fun st1 => run (markerRe 3) (setGroup 1 ⟨0, buf, fun _ => -1⟩ st1)
    with hKdef
  have hK : ∀ q, 0 < q → ∀ p1 c, K ⟨p1, (95 :: tl).drop q, c⟩ = [] := by
    intro q hq p1 c
    simp only [hKdef, setGroup]
    rw [run_markerRe, ← htl, List.drop_drop, hlast (p + q) (by omega)]
  obtain ⟨cap1, more, heq, hnil, hcons⟩ :=
    starLoop_anyRune_last K 95 tl (by decide) hK buf.length (buf.take p) 0 (fun _ => -1)
      (by rw [← hbuf])
  rw [← hbuf, htake] at heq
  have hKp : K ⟨0 + p, 95 :: tl, cap1⟩ =
      [⟨0 + p + 14 + i.length + 1 + rc.length + 2, post,
        setCap (setCap (setCap (setCap cap1 2 (0 : Int)) 3 ((0 + p : Nat) : Int)) 6
          ((0 + p + 14 : Nat) : Int)) 7 ((0 + p + 14 + i.length + 1 + rc.length : Nat) : Int)⟩] := by
    simp only [hKdef, setGroup]
    rw [run_markerRe, ← htl, hm]
    rfl
  have hrun : (run gosh_re ⟨0, buf, fun _ => -1⟩).head? =
      some ⟨0 + p + 14 + i.length + 1 + rc.length + 2, post,
        setCap (setCap (setCap (setCap cap1 2 (0 : Int)) 3 ((0 + p : Nat) : Int)) 6
          ((0 + p + 14 : Nat) : Int)) 7 ((0 + p + 14 + i.length + 1 + rc.length : Nat) : Int)⟩ := by
    rw [run_gosh_re]
    simp only
    rw [heq, hKp]
    rfl
  refine ⟨cap1 4, cap1 5, ?_, ?_, ?_⟩
  · unfold Regex.FindSubmatchIndex
    rw [gosh_re_numSubexp]
    simp only [search, hrun, range_six, List.map, setCap]
    simp
  · intro hp0
    have := hnil (by simp [hp0])
    simp [this]
  · intro hp
    have hne : buf.take p ≠ [] := by
      intro h0
      rw [h0] at htake
      simp at htake
      omega
    obtain ⟨g, hg1, hg2, hg3⟩ := hcons hne
    rw [htake] at hg2 hg3
    simp only [hg3, setCap]
    simp
    omega

theorem search_gosh_re2_pos (n pos : Nat) (rest : List Nat) (hpos : 0 < pos) :
    search gosh_re2 1 n pos rest = none := by
  induction n generalizing pos rest with
  | zero => rfl
  | succ n ih =>
    have hrun : run gosh_re2 ⟨pos, rest, fun _ => -1⟩ = [] := by
      rw [run_gosh_re2]
      simp only
      rw [if_neg (by omega)]
    simp only [search, hrun, List.head?_nil]
    cases rest with
    | nil => rfl
    | cons b t =>
      simp only
      exact ih _ _ (by omega)

/-- The expression `gosh_re2` matches exactly the texts that begin with a marker; group 1
is the two digit fields with the colon between them. -/
theorem find_gosh_re2 (buf : List Nat) :
    gosh_re2.FindSubmatchIndex buf =
      match splitMarker buf with
      | some (i, rc, _) =>
        some [0, ((14 + i.length + 1 + rc.length + 2 : Nat) : Int), 14,
          ((14 + i.length + 1 + rc.length : Nat) : Int)]
      | none => none := by
  unfold Regex.FindSubmatchIndex
  rw [gosh_re2_numSubexp]
  have hrun : run gosh_re2 ⟨0, buf, fun _ => -1⟩ = run (markerRe 1) ⟨0, buf, fun _ => -1⟩ := by
    rw [run_gosh_re2]; rfl
  simp only [search, hrun]
  rw [run_markerRe]
  cases hs : splitMarker buf with
  | none =>
    simp only [List.head?_nil]
    cases buf with
    | nil => rfl
    | cons b t =>
      simp only
      exact search_gosh_re2_pos _ _ _ (by have := DecodeRune_snd_pos b t; omega)
  | some x =>
    obtain ⟨i, rc, post⟩ := x
    simp only [List.head?_cons, range_two, List.map, setCap]
    simp

theorem gosh_re2_Match (buf : List Nat) : gosh_re2.Match buf = beginsWithMarker buf := by
  unfold Regex.Match beginsWithMarker
  rw [find_gosh_re2]
  cases splitMarker buf with
  | none => rfl
  | some x => rfl

theorem markerAt_of_length_le (buf : List Nat) (q : Nat) (h : buf.length ≤ q) :
    markerAt buf q = false := by
  unfold markerAt beginsWithMarker
  rw [List.drop_eq_nil_of_le h, splitMarker_nil]
  rfl

theorem splitMarker_none_of_markerAt (buf : List Nat) (q : Nat) (h : markerAt buf q = false) :
    splitMarker (buf.drop q) = none := by
  unfold markerAt beginsWithMarker at h
  cases hs : splitMarker (buf.drop q) with
  | none => rfl
  | some x => rw [hs] at h; simp at h

/-- A buffer with a marker occurrence has a last one. -/
theorem exists_lastMarker (buf : List Nat) (h : ∃ q, markerAt buf q = true) :
    ∃ p, LastMarkerAt buf p := by
  obtain ⟨q, hq⟩ := h
  have hqlt : q < buf.length := by
    by_contra hge
    rw [markerAt_of_length_le buf q (by omega)] at hq
    exact absurd hq (by simp)
  refine ⟨Nat.findGreatest (fun p => markerAt buf p = true) buf.length, ?_, ?_⟩
  · exact Nat.findGreatest_spec (P := fun p => markerAt buf p = true) (Nat.le_of_lt hqlt) hq
  · intro r hr hlt
    have := Nat.findGreatest_is_greatest (P := fun p => markerAt buf p = true) hlt
      (Nat.le_of_lt hr)
    simpa using this

theorem LastMarkerAt.later (buf : List Nat) (p : Nat) (h : LastMarkerAt buf p) :
    ∀ q, p < q → splitMarker (buf.drop q) = none := by
  intro q hq
  apply splitMarker_none_of_markerAt
  rcases Nat.lt_or_ge q buf.length with hlt | hge
  · exact h.2 q hlt hq
  · exact markerAt_of_length_le buf q hge

theorem LastMarkerAt.split (buf : List Nat) (p : Nat) (h : LastMarkerAt buf p) :
    ∃ i rc post, splitMarker (buf.drop p) = some (i, rc, post) := by
  have := h.1
  unfold markerAt beginsWithMarker at this
  rw [Option.isSome_iff_exists] at this
  obtain ⟨⟨i, rc, post⟩, hx⟩ := this
  exact ⟨i, rc, post, hx⟩

/-- The expression `gosh_re` matches exactly the buffers that contain a marker. -/
theorem gosh_re_Match_iff (buf : List Nat) :
    gosh_re.Match buf = true ↔ ∃ q, markerAt buf q = true := by
  constructor
  · intro h
    by_contra hno
    have hall : ∀ q, splitMarker (buf.drop q) = none := by
      intro q
      apply splitMarker_none_of_markerAt
      cases hq : markerAt buf q with
      | false => rfl
      | true => exact absurd ⟨q, hq⟩ hno
    unfold Regex.Match at h
    rw [find_gosh_re_none buf hall] at h
    simp at h
  · intro h
    obtain ⟨p, hp⟩ := exists_lastMarker buf h
    obtain ⟨i, rc, post, hs⟩ := hp.split
    obtain ⟨g2s, g2e, hfind, _⟩ := find_gosh_re buf p i rc post hs hp.later
    unfold Regex.Match
    rw [hfind]
    rfl

/-! ## The decode step -/

theorem Split_no_sep (s : List Nat) (sep : Nat) (h : ∀ b ∈ s, b ≠ sep) :
    Split s sep = [s] := by
  induction s with
  | nil => rfl
  | cons c t ih =>
    have hc : c ≠ sep := h c (by simp)
    have := ih (fun b hb => h b (by simp [hb]))
    simp [Split, hc, this]

theorem Split_append_sep (s t : List Nat) (sep : Nat) (h : ∀ b ∈ s, b ≠ sep) :
    Split (s ++ sep :: t) sep = s :: Split t sep := by
  induction s with
  | nil => simp [Split]
  | cons c u ih =>
    have hc : c ≠ sep := h c (by simp)
    have := ih (fun b hb => h b (by simp [hb]))
    simp [Split, hc, this]

theorem digit_ne_colon (ds : List Nat) (h : ∀ b ∈ ds, isDigit b = true) :
    ∀ b ∈ ds, b ≠ 58 := by
  intro b hb hb58
  have := h b hb
  subst hb58
  simp [isDigit] at this

theorem quoteByte_digit (b : Nat) (h : isDigit b = true) : quoteByte b = [b] := by
  simp only [isDigit, Bool.and_eq_true, decide_eq_true_eq] at h
  unfold quoteByte
  rw [if_neg (by omega), if_neg (by omega), if_pos (by omega)]

theorem flatMap_quoteByte_digits (ds : List Nat) (h : ∀ b ∈ ds, isDigit b = true) :
    ds.flatMap quoteByte = ds := by
  induction ds with
  | nil => rfl
  | cons b t ih =>
    simp [quoteByte_digit b (h b (by simp)), ih (fun c hc => h c (by simp [hc]))]

/-- For a digit string the error built by line 141 or 168 has the text `error: "<rc>"`. -/
theorem Errorf_digits (rc : List Nat) (h : ∀ b ∈ rc, isDigit b = true) :
    Errorf (ascii "error: %q") [.bytes rc] = ⟨ascii "error: \"" ++ rc ++ ascii "\""⟩ := by
  have hf : ascii "error: %q" = [101, 114, 114, 111, 114, 58, 32, 37, 113] := by decide
  have h1 : ascii "error: \"" = [101, 114, 114, 111, 114, 58, 32, 34] := by decide
  have h2 : ascii "\"" = [34] := by decide
  rw [hf, h1, h2]
  simp [Errorf, Sprintf, verb, Quote, flatMap_quoteByte_digits rc h]

theorem classify_fields (i rc : List Nat) (hi : IsDigits i) (hrc : IsDigits rc) :
    classify (i ++ 58 :: rc) = some (exitError rc) := by
  unfold classify exitError
  rw [Split_append_sep i rc 58 (digit_ne_colon i hi.2), Split_no_sep rc 58 (digit_ne_colon rc hrc.2)]
  by_cases h0 : rc = ascii "0"
  · simp [h0]
  · simp [h0, Errorf_digits rc hrc.2]

theorem slice_of_nat {α : Type} (s : List α) (lo hi : Int) (l h : Nat) (hl : lo = (l : Int))
    (hh : hi = (h : Int)) (h1 : l ≤ h) (h2 : h ≤ s.length) :
    slice s lo hi = some ((s.take h).drop l) := by
  subst hl hh
  unfold slice
  rw [if_pos ⟨by omega, by omega, by omega⟩]
  simp

theorem sliceFrom_of_nat {α : Type} (s : List α) (lo : Int) (l : Nat) (hl : lo = (l : Int))
    (h : l ≤ s.length) : sliceFrom s lo = some (s.drop l) := by
  unfold sliceFrom
  rw [slice_of_nat s lo s.length l s.length hl rfl h (le_refl _)]
  simp

theorem sliceTo_of_nat {α : Type} (s : List α) (hi : Int) (h : Nat) (hh : hi = (h : Int))
    (h2 : h ≤ s.length) : sliceTo s hi = some (s.take h) := by
  unfold sliceTo
  rw [slice_of_nat s 0 hi 0 h (by simp) hh (Nat.zero_le _) h2]
  simp

theorem index_of_nat {α : Type} (s : List α) (i : Int) (n : Nat) (hi : i = (n : Int)) :
    index s i = s[n]? := by
  subst hi
  simp [index]

theorem take_drop_mid {α : Type} (a m z : List α) :
    ((a ++ (m ++ z)).take (a.length + m.length)).drop a.length = m := by
  rw [List.take_append, List.drop_left, List.take_left]

/-- The leading-marker branch on a buffer that begins with a marker. -/
theorem decodeRe2_eq (buf rem i rc post : List Nat)
    (h : splitMarker buf = some (i, rc, post)) :
    decodeRe2 buf rem = some ([], exitError rc, rem ++ post) := by
  obtain ⟨hbuf, hi, hrc⟩ := splitMarker_some buf i rc post h
  have hlen : buf.length = 14 + i.length + 1 + rc.length + 2 + post.length := by
    rw [hbuf, List.length_append, marker_length]
  have hcirc : (buf.take (14 + i.length + 1 + rc.length)).drop 14 = i ++ 58 :: rc := by
    have := take_drop_mid GOSH_beg (i ++ 58 :: rc) (125 :: 125 :: post)
    rw [GOSH_beg_length] at this
    have e : 14 + i.length + 1 + rc.length = 14 + (i ++ 58 :: rc).length := by
      simp only [List.length_append, List.length_cons]; omega
    rw [hbuf, marker_append, e]
    simpa using this
  have htl : buf.drop (14 + i.length + 1 + rc.length + 2) = post := by
    rw [hbuf, ← marker_length, List.drop_left]
  unfold decodeRe2
  rw [find_gosh_re2, h]
  simp only [Option.bind_eq_bind, Option.some_bind]
  rw [sliceFrom_of_nat _ 2 2 rfl (by simp)]
  simp only [Option.some_bind, List.drop_succ_cons, List.drop_zero, List.getElem?_cons_zero,
    List.getElem?_cons_succ]
  rw [slice_of_nat buf 14 _ 14 (14 + i.length + 1 + rc.length) (by simp) rfl (by omega)
    (by omega), hcirc]
  simp only [Option.some_bind]
  rw [sliceFrom_of_nat buf _ (14 + i.length + 1 + rc.length + 2) (by push_cast; ring)
    (by omega), htl]
  simp [classify_fields i rc hi hrc]

theorem msgLoop_eq (buf : List Nat) (p g : Nat) (x y : Int) (hg : g ≤ p)
    (hp : p ≤ buf.length) :
    msgLoop buf [0, (p : Int), (g : Int), (p : Int), x, y] [0, (p : Int), (g : Int), (p : Int)]
      4 0 0 = some (p : Int) := by
  have e1 := slice_of_nat buf 0 (p : Int) 0 p (by simp) rfl (Nat.zero_le _) hp
  have e2 := slice_of_nat buf (g : Int) (p : Int) g p rfl rfl hg hp
  simp [msgLoop, e1, e2]

/-- The trailing-marker branch on a buffer whose last marker starts after the first byte:
the payload is the text before that marker and `rem` receives the buffer from two bytes
after the start of the marker. -/
theorem decodeRe_eq (buf rem : List Nat) (p : Nat) (i rc post : List Nat)
    (hm : splitMarker (buf.drop p) = some (i, rc, post))
    (hlast : ∀ q, p < q → splitMarker (buf.drop q) = none) (hp : 0 < p) :
    decodeRe buf rem = some (buf.take p, exitError rc, rem ++ buf.drop (p + 2)) := by
  obtain ⟨hdrop, hi, hrc⟩ := splitMarker_some (buf.drop p) i rc post hm
  obtain ⟨g2s, g2e, hfind, -, hcap⟩ := find_gosh_re buf p i rc post hm hlast
  obtain ⟨hg0, hgp, rfl⟩ := hcap hp
  obtain ⟨g, rfl⟩ := Int.eq_ofNat_of_zero_le hg0
  have hgp1 : g ≤ p := by omega
  have hlen : buf.length = p + (14 + i.length + 1 + rc.length + 2 + post.length) := by
    have h1 : (buf.drop p).length = 14 + i.length + 1 + rc.length + 2 + post.length := by
      rw [hdrop, List.length_append, marker_length]
    rw [List.length_drop] at h1
    omega
  have hbuf : buf = buf.take p ++ (GOSH_beg ++ ((i ++ 58 :: rc) ++ 125 :: 125 :: post)) := by
    conv_lhs => rw [← List.take_append_drop p buf, hdrop, marker_append]
    simp
  have htake : (buf.take p).length = p := by simp; omega
  have hcirc : (buf.take (p + 14 + i.length + 1 + rc.length)).drop (p + 14) = i ++ 58 :: rc := by
    have := take_drop_mid (buf.take p ++ GOSH_beg) (i ++ 58 :: rc) (125 :: 125 :: post)
    rw [List.length_append, htake, GOSH_beg_length, List.append_assoc, ← hbuf] at this
    have e : p + 14 + i.length + 1 + rc.length = p + 14 + (i ++ 58 :: rc).length := by
      simp only [List.length_append, List.length_cons]; omega
    rw [e]
    exact this
  unfold decodeRe
  rw [hfind]
  simp only [Option.bind_eq_bind, Option.some_bind]
  rw [sliceFrom_of_nat _ 2 2 rfl (by simp)]
  simp only [Option.some_bind, List.drop_succ_cons, List.drop_zero]
  rw [sliceTo_of_nat _ _ 4 (by simp) (by simp)]
  simp only [Option.some_bind, List.take_succ_cons, List.take_zero, List.getElem?_cons_zero,
    List.length_cons, List.length_nil]
  rw [msgLoop_eq buf p g _ _ hgp1 (by omega)]
  simp only [Option.some_bind]
  rw [slice_of_nat buf 0 _ 0 p (by simp) rfl (Nat.zero_le _) (by omega)]
  simp only [Option.some_bind, List.drop_zero]
  rw [index_of_nat _ _ 4 (by simp), index_of_nat _ _ 5 (by simp)]
  simp only [List.getElem?_cons_succ, List.getElem?_cons_zero, Option.some_bind]
  rw [slice_of_nat buf _ _ (p + 14) (p + 14 + i.length + 1 + rc.length) rfl rfl (by omega)
    (by omega), hcirc]
  simp only [Option.some_bind]
  rw [sliceFrom_of_nat buf _ (p + 2) (by push_cast; ring) (by omega)]
  simp [classify_fields i rc hi hrc]

/-- On a buffer that begins with its last marker the trailing-marker branch would panic:
group 2 took no part in the match and the slice at line 152 has the bounds `-1`. -/
theorem decodeRe_panics (buf rem : List Nat) (i rc post : List Nat)
    (hm : splitMarker buf = some (i, rc, post))
    (hlast : ∀ q, 0 < q → splitMarker (buf.drop q) = none) :
    decodeRe buf rem = none := by
  obtain ⟨g2s, g2e, hfind, hcap, -⟩ := find_gosh_re buf 0 i rc post (by simpa using hm) hlast
  obtain ⟨rfl, rfl⟩ := hcap rfl
  unfold decodeRe
  rw [hfind]
  simp only [Option.bind_eq_bind, Option.some_bind]
  rw [sliceFrom_of_nat _ 2 2 rfl (by simp)]
  simp only [Option.some_bind, List.drop_succ_cons, List.drop_zero]
  rw [sliceTo_of_nat _ _ 4 (by simp) (by simp)]
  simp [msgLoop, slice]

theorem splitMarker_isSome_of (s i rc post : List Nat) (h : splitMarker s = some (i, rc, post)) :
    beginsWithMarker s = true := by
  simp [beginsWithMarker, h]

theorem splitMarker_none_of (s : List Nat) (h : beginsWithMarker s = false) :
    splitMarker s = none := by
  unfold beginsWithMarker at h
  cases hs : splitMarker s with
  | none => rfl
  | some x => rw [hs] at h; simp at h

/-- The decode step on a buffer that begins with a marker. -/
theorem decodeStep_lead (buf rem i rc post : List Nat)
    (h : splitMarker buf = some (i, rc, post)) :
    decodeStep buf none rem = some ([], exitError rc, rem ++ post) := by
  unfold decodeStep
  simp only
  rw [gosh_re2_Match, splitMarker_isSome_of buf i rc post h, if_pos rfl]
  exact decodeRe2_eq buf rem i rc post h

/-- The decode step on a buffer that does not begin with a marker and whose last marker
is at offset `p`. -/
theorem decodeStep_trail (buf rem : List Nat) (p : Nat) (i rc post : List Nat)
    (hnb : beginsWithMarker buf = false)
    (hm : splitMarker (buf.drop p) = some (i, rc, post))
    (hlast : ∀ q, p < q → splitMarker (buf.drop q) = none) :
    decodeStep buf none rem = some (buf.take p, exitError rc, rem ++ buf.drop (p + 2)) := by
  have hp : 0 < p := by
    rcases Nat.eq_zero_or_pos p with h0 | h0
    · subst h0
      rw [List.drop_zero, splitMarker_none_of buf hnb] at hm
      exact absurd hm (by simp)
    · exact h0
  unfold decodeStep
  simp only
  rw [gosh_re2_Match, hnb]
  simp only [Bool.false_eq_true, if_false]
  exact decodeRe_eq buf rem p i rc post hm hlast hp

/-! ## Marker occurrences inside and around a marker -/

theorem GOSH_beg_not_prefix_drop (k : Nat) (h1 : 0 < k) (h2 : k < 14) (r : List Nat) :
    GOSH_beg.isPrefixOf (GOSH_beg.drop k ++ r) = false := by
  rw [GOSH_beg_eq]
  interval_cases k <;> simp [List.isPrefixOf]

theorem splitMarker_none_of_not_prefix (s : List Nat) (h : GOSH_beg.isPrefixOf s = false) :
    splitMarker s = none := by
  unfold splitMarker
  simp [h]

theorem splitMarker_none_of_head (b : Nat) (t : List Nat) (hb : b ≠ 95) :
    splitMarker (b :: t) = none := by
  cases hs : splitMarker (b :: t) with
  | none => rfl
  | some x =>
    obtain ⟨u, hu⟩ := splitMarker_head (b :: t) (by rw [hs]; simp)
    simp at hu
    exact absurd hu.1 hb

/-- No marker starts strictly inside a marker. -/
theorem no_marker_inside (i rc post : List Nat) (hi : IsDigits i) (hrc : IsDigits rc)
    (k : Nat) (hk1 : 0 < k) (hk2 : k < (marker i rc).length) :
    splitMarker ((marker i rc ++ post).drop k) = none := by
  rw [marker_length] at hk2
  rw [marker_append]
  rcases Nat.lt_or_ge k 14 with hlt | hge
  · rw [List.drop_append_of_le_length (by rw [GOSH_beg_length]; omega)]
    exact splitMarker_none_of_not_prefix _ (GOSH_beg_not_prefix_drop k hk1 hlt _)
  · have e : k = GOSH_beg.length + (k - 14) := by rw [GOSH_beg_length]; omega
    rw [e, ← List.drop_drop, List.drop_left]
    have hm : ∀ c ∈ i ++ 58 :: (rc ++ [125, 125]), c ≠ 95 := by
      intro c hc
      simp only [List.mem_append, List.mem_cons, List.mem_singleton, List.not_mem_nil,
        or_false] at hc
      rcases hc with hc | hc | hc | hc | hc
      · have := hi.2 c hc
        intro h95; subst h95; simp [isDigit] at this
      · omega
      · have := hrc.2 c hc
        intro h95; subst h95; simp [isDigit] at this
      · omega
      · omega
    have hsplit : i ++ 58 :: (rc ++ 125 :: 125 :: post)
        = (i ++ 58 :: (rc ++ [125, 125])) ++ post := by simp
    have hlen : k - 14 < (i ++ 58 :: (rc ++ [125, 125])).length := by
      simp only [List.length_append, List.length_cons, List.length_nil]; omega
    rw [hsplit, List.drop_append_of_le_length (Nat.le_of_lt hlen)]
    cases hd : (i ++ 58 :: (rc ++ [125, 125])).drop (k - 14) with
    | nil =>
      have := List.drop_eq_nil_iff.mp hd
      omega
    | cons c t =>
      have hc : c ∈ i ++ 58 :: (rc ++ [125, 125]) :=
        List.mem_of_mem_drop (by rw [hd]; simp)
      exact splitMarker_none_of_head c _ (hm c hc)

/-- A text that does not begin with a marker does not begin with one after a marker is
appended to it, unless it is empty. -/
theorem not_beginsWithMarker_append (B i rc post : List Nat) (hi : IsDigits i)
    (hrc : IsDigits rc) (hne : B ≠ []) (hB : beginsWithMarker B = false) :
    beginsWithMarker (B ++ marker i rc ++ post) = false := by
  cases hs : beginsWithMarker (B ++ marker i rc ++ post) with
  | false => rfl
  | true =>
    exfalso
    obtain ⟨i1, rc1, post1, hi1, hrc1, heq⟩ := (beginsWithMarker_iff _).mp hs
    rcases Nat.lt_or_ge B.length (marker i1 rc1).length with hlt | hge
    · have h1 := no_marker_inside i1 rc1 post1 hi1 hrc1 B.length (List.length_pos.mpr hne) hlt
      rw [← heq, List.append_assoc, List.drop_left, splitMarker_marker i rc post hi hrc] at h1
      exact absurd h1 (by simp)
    · have hB2 : B = marker i1 rc1 ++ post1.take (B.length - (marker i1 rc1).length) := by
        have h2 := congrArg (List.take B.length) heq
        rw [List.append_assoc, List.take_left, List.take_append_eq_append_take,
          List.take_of_length_le hge] at h2
        exact h2
      have : beginsWithMarker B = true :=
        (beginsWithMarker_iff B).mpr ⟨i1, rc1, _, hi1, hrc1, hB2⟩
      rw [hB] at this
      exact absurd this (by simp)

/-- In a buffer that ends with a marker and a line feed, that marker is the last one. -/
theorem last_marker_of_final (B i rc : List Nat) (hi : IsDigits i) (hrc : IsDigits rc) :
    ∀ q, B.length < q → splitMarker ((B ++ marker i rc ++ [10]).drop q) = none := by
  intro q hq
  have e : q = B.length + (q - B.length) := by omega
  rw [e, List.append_assoc, ← List.drop_drop, List.drop_left]
  rcases Nat.lt_or_ge (q - B.length) (marker i rc).length with hlt | hge
  · exact no_marker_inside i rc [10] hi hrc _ (by omega) hlt
  · have e2 : q - B.length = (marker i rc).length + (q - B.length - (marker i rc).length) := by
      omega
    rw [e2, ← List.drop_drop, List.drop_left]
    rcases Nat.eq_zero_or_pos (q - B.length - (marker i rc).length) with h0 | h0
    · rw [h0]; decide
    · rw [List.drop_eq_nil_of_le (by simp; omega)]
      exact splitMarker_nil

/-! ## The accumulation loop -/

theorem Read_err (p : List Nat) (r : ReadResult) : (Read p r).2.2 = r.err := rfl

/-- The loop ends without an error exactly when it started without one and no read it
made returned one; it then ends on a buffer that `gosh_re` matches. -/
theorem accumulate_spec (reads : List ReadResult) :
    ∀ (buf : List Nat) (err : Option GoError) (buf1 : List Nat) (err1 : Option GoError)
      (rest : List ReadResult), accumulate reads buf err = some (buf1, err1, rest) →
      ∃ consumed, reads = consumed ++ rest ∧
        (err1 = none ↔ err = none ∧ ∀ r ∈ consumed, r.err = none) ∧
        (err1 = none → gosh_re.Match buf1 = true) := by
  induction reads with
  | nil =>
    intro buf err buf1 err1 rest h
    unfold accumulate at h
    split_ifs at h with hm
    simp only [Option.some.injEq, Prod.mk.injEq] at h
    obtain ⟨rfl, rfl, rfl⟩ := h
    exact ⟨[], rfl, by simp, fun _ => hm⟩
  | cons r rs ih =>
    intro buf err buf1 err1 rest h
    simp only [accumulate] at h
    split_ifs at h with hm he
    · simp only [Option.some.injEq, Prod.mk.injEq] at h
      obtain ⟨rfl, rfl, rfl⟩ := h
      exact ⟨[], rfl, by simp, fun _ => hm⟩
    · simp only [Option.some.injEq, Prod.mk.injEq] at h
      obtain ⟨rfl, rfl, rfl⟩ := h
      rw [Read_err] at he ⊢
      refine ⟨[r], rfl, ?_, ?_⟩
      · constructor
        · intro h0; rw [h0] at he; simp at he
        · intro h0
          have := h0.2 r (by simp)
          rw [this] at he; simp at he
      · intro h0; rw [h0] at he; simp at he
    · obtain ⟨consumed, hc, hiff, hmatch⟩ := ih _ _ _ _ _ h
      rw [Read_err] at he
      have hr : r.err = none := by
        cases hre : r.err with
        | none => rfl
        | some e => rw [hre] at he; simp at he
      refine ⟨r :: consumed, by rw [hc]; rfl, ?_, hmatch⟩
      rw [hiff]
      constructor
      · rintro ⟨h1, h2⟩
        refine ⟨h1, ?_⟩
        intro x hx
        rcases List.mem_cons.mp hx with rfl | hx
        · exact hr
        · exact h2 x hx
      · rintro ⟨h1, h2⟩
        exact ⟨h1, fun x hx => h2 x (List.mem_cons_of_mem _ hx)⟩

/-- The first read and the loop together: the error is nil exactly when no read that was
made returned an error, and then `gosh_re` matches the accumulated buffer. -/
theorem accumulated_spec (rem : List Nat) (reads : List ReadResult) (buf : List Nat)
    (err : Option GoError) (rest : List ReadResult)
    (h : accumulated rem reads = some (buf, err, rest)) :
    ∃ consumed, reads = consumed ++ rest ∧
      (err = none ↔ ∀ r ∈ consumed, r.err = none) ∧
      (err = none → gosh_re.Match buf = true) := by
  unfold accumulated at h
  cases reads with
  | nil => simp at h
  | cons r rs =>
    simp only at h
    obtain ⟨consumed, hc, hiff, hmatch⟩ := accumulate_spec rs _ _ _ _ _ h
    refine ⟨r :: consumed, by rw [hc]; rfl, ?_, hmatch⟩
    rw [hiff]
    have hfr : (firstRead rem r).2 = r.err := rfl
    rw [hfr]
    constructor
    · rintro ⟨h1, h2⟩ x hx
      rcases List.mem_cons.mp hx with rfl | hx
      · exact h1
      · exact h2 x hx
    · intro h2
      exact ⟨h2 r (by simp), fun x hx => h2 x (List.mem_cons_of_mem _ hx)⟩

/-- A buffer that `gosh_re` matches is decoded at some offset, where a marker stands. -/
theorem exists_decodedAt (buf : List Nat) (h : gosh_re.Match buf = true) :
    ∃ p i rc post, DecodedAt buf p ∧ splitMarker (buf.drop p) = some (i, rc, post) := by
  cases hb : beginsWithMarker buf with
  | true =>
    have hb2 := hb
    unfold beginsWithMarker at hb2
    rw [Option.isSome_iff_exists] at hb2
    obtain ⟨⟨i, rc, post⟩, hs⟩ := hb2
    exact ⟨0, i, rc, post, Or.inl ⟨hb, rfl⟩, by simpa using hs⟩
  | false =>
    obtain ⟨p, hp⟩ := exists_lastMarker buf ((gosh_re_Match_iff buf).mp h)
    obtain ⟨i, rc, post, hs⟩ := hp.split
    exact ⟨p, i, rc, post, Or.inr ⟨hb, hp⟩, hs⟩

/-- The decode step at the offset where the buffer is decoded: the payload is the text
before that offset and the error is the one the return code of the marker there gives. -/
theorem decodeStep_decodedAt (buf rem : List Nat) (p : Nat) (i rc post : List Nat)
    (hd : DecodedAt buf p) (hs : splitMarker (buf.drop p) = some (i, rc, post)) :
    ∃ rem1, decodeStep buf none rem = some (buf.take p, exitError rc, rem1) := by
  rcases hd with ⟨hb, rfl⟩ | ⟨hb, hl⟩
  · rw [List.drop_zero] at hs
    exact ⟨_, by rw [decodeStep_lead buf rem i rc post hs]; rfl⟩
  · exact ⟨_, decodeStep_trail buf rem p i rc post hb hs hl.later⟩

/-- The offset at which a buffer is decoded is unique. -/
theorem DecodedAt.unique (buf : List Nat) (p q : Nat) (hp : DecodedAt buf p)
    (hq : DecodedAt buf q) : p = q := by
  rcases hp with ⟨hb, rfl⟩ | ⟨hb, hl⟩ <;> rcases hq with ⟨hb1, rfl⟩ | ⟨hb1, hl1⟩
  · rfl
  · rw [hb] at hb1; exact absurd hb1 (by simp)
  · rw [hb] at hb1; exact absurd hb1 (by simp)
  · have hpl : p < buf.length := by
      by_contra hge
      have := markerAt_of_length_le buf p (by omega)
      rw [hl.1] at this; exact absurd this (by simp)
    have hql : q < buf.length := by
      by_contra hge
      have := markerAt_of_length_le buf q (by omega)
      rw [hl1.1] at this; exact absurd this (by simp)
    rcases Nat.lt_trichotomy p q with h | h | h
    · have := hl.2 q hql h
      rw [hl1.1] at this; exact absurd this (by simp)
    · exact h
    · have := hl1.2 p hpl h
      rw [hl.1] at this; exact absurd this (by simp)

/-! ## Payload fidelity -/

/-- C1, the claim as stated fails: with the output of `echo __@@GOSH@@__{{999:0}}` as
payload `B`, followed by the marker of submission 1 and a line feed, the buffer begins with
a marker, the leading-marker branch runs, and the delivered payload is empty instead of
`B`. -/
theorem payload_fidelity_lookalike_refuted :
    IsDigits (ascii "1") ∧ IsDigits (ascii "0") ∧
    (decodeStep (ascii "__@@GOSH@@__\x7b\x7b999:0\x7d\x7d\n" ++ marker (ascii "1") (ascii "0")
        ++ [10]) none []).map (fun r => r.1) = some [] ∧
    (decodeStep (ascii "__@@GOSH@@__\x7b\x7b999:0\x7d\x7d\n" ++ marker (ascii "1") (ascii "0")
        ++ [10]) none []).map (fun r => r.1)
      ≠ some (ascii "__@@GOSH@@__\x7b\x7b999:0\x7d\x7d\n") := by
  have hs : splitMarker (ascii "__@@GOSH@@__\x7b\x7b999:0\x7d\x7d\n"
      ++ marker (ascii "1") (ascii "0") ++ [10])
      = some (ascii "999", ascii "0", [10] ++ marker (ascii "1") (ascii "0") ++ [10]) := by
    decide
  refine ⟨by decide, by decide, ?_, ?_⟩
  · rw [decodeStep_lead _ _ _ _ _ hs]; rfl
  · rw [decodeStep_lead _ _ _ _ _ hs]; decide

/-- C1, amended: for every byte string `B` that does not begin with a marker and all
non-empty digit strings `i`, `rc`, the decode step on the buffer `B`, marker `i:rc`, line
feed, without read error, delivers exactly `B` as payload (with the error that `rc`
gives). -/
theorem payload_fidelity (B i rc : List Nat) (hi : IsDigits i) (hrc : IsDigits rc)
    (hB : beginsWithMarker B = false) :
    ∃ rem, decodeStep (B ++ marker i rc ++ [10]) none [] = some (B, exitError rc, rem) := by
  by_cases hne : B = []
  · subst hne
    refine ⟨[10], ?_⟩
    rw [List.nil_append, decodeStep_lead _ _ i rc [10] (splitMarker_marker i rc [10] hi hrc)]
    rfl
  · have hnb := not_beginsWithMarker_append B i rc [10] hi hrc hne hB
    have hm : splitMarker ((B ++ marker i rc ++ [10]).drop B.length) = some (i, rc, [10]) := by
      rw [List.append_assoc, List.drop_left]
      exact splitMarker_marker i rc [10] hi hrc
    refine ⟨[] ++ (B ++ marker i rc ++ [10]).drop (B.length + 2), ?_⟩
    rw [decodeStep_trail _ _ B.length i rc [10] hnb hm (last_marker_of_final B i rc hi hrc)]
    rw [List.append_assoc, List.take_left]

/-- Witness for C1: the payload `hello` with its line feed, submission 12, return code 0. -/
theorem payload_fidelity_witness :
    IsDigits (ascii "12") ∧ IsDigits (ascii "0") ∧ beginsWithMarker (ascii "hello\n") = false ∧
    ∃ rem, decodeStep (ascii "hello\n" ++ marker (ascii "12") (ascii "0") ++ [10]) none []
      = some (ascii "hello\n", exitError (ascii "0"), rem) :=
  ⟨by decide, by decide, by decide,
    payload_fidelity (ascii "hello\n") (ascii "12") (ascii "0") (by decide) (by decide)
      (by decide)⟩

/-! ## Bytes across response boundaries -/

theorem containsMarker_iff (buf : List Nat) :
    containsMarker buf = true ↔ ∃ q, markerAt buf q = true := by
  unfold containsMarker
  rw [List.any_eq_true]
  constructor
  · rintro ⟨q, -, hq⟩
    exact ⟨q, hq⟩
  · rintro ⟨q, hq⟩
    refine ⟨q, ?_, hq⟩
    rw [List.mem_range]
    by_contra hge
    rw [markerAt_of_length_le buf q (by omega)] at hq
    exact absurd hq (by simp)

theorem gosh_re_Match_eq (buf : List Nat) : gosh_re.Match buf = containsMarker buf := by
  cases hc : containsMarker buf with
  | true => exact (gosh_re_Match_iff buf).mpr ((containsMarker_iff buf).mp hc)
  | false =>
    cases hm : gosh_re.Match buf with
    | false => rfl
    | true =>
      have := (containsMarker_iff buf).mpr ((gosh_re_Match_iff buf).mp hm)
      rw [hc] at this
      exact absurd this (by simp)

theorem Read_fits (c : List Nat) (e : Option GoError) (hc : c.length ≤ _BUFSZ) :
    (Read (List.replicate _BUFSZ 0) ⟨c, e⟩).1.take (Read (List.replicate _BUFSZ 0) ⟨c, e⟩).2.1
      = c := by
  have hlen : (List.replicate _BUFSZ 0).length = _BUFSZ := by simp
  simp only [Read, hlen, Nat.min_eq_left hc]
  rw [List.take_append_of_le_length (by simp)]
  simp

/-- The accumulation loop over reads without error: when the marker is completed only by
the last of the chunks `cs`, the loop consumes exactly these chunks and ends on the buffer
extended by all of them. -/
theorem accumulate_chunks (cs : List (List Nat)) (more : List ReadResult) :
    ∀ buf : List Nat, (∀ c ∈ cs, c.length ≤ _BUFSZ) →
      (∀ k < cs.length, containsMarker (buf ++ (cs.take k).flatten) = false) →
      containsMarker (buf ++ cs.flatten) = true →
      accumulate (okReads cs ++ more) buf none = some (buf ++ cs.flatten, none, more) := by
  induction cs with
  | nil =>
    intro buf _ _ hm
    simp only [List.flatten_nil, List.append_nil] at hm ⊢
    simp only [okReads, List.map_nil, List.nil_append]
    unfold accumulate
    rw [gosh_re_Match_eq, hm]
    cases more <;> rfl
  | cons c cs ih =>
    intro buf hsz hno hm
    have h0 := hno 0 (by simp)
    simp only [List.take_zero, List.flatten_nil, List.append_nil] at h0
    have hstep : accumulate (okReads (c :: cs) ++ more) buf none
        = accumulate (okReads cs ++ more) (buf ++ c) none := by
      simp only [okReads, List.map_cons, List.cons_append]
      rw [accumulate]
      simp only [gosh_re_Match_eq, h0, Bool.false_eq_true, if_false, Read_err,
        Option.isSome_none, Read_fits c none (hsz c (by simp))]
    rw [hstep, ih (buf ++ c) (fun x hx => hsz x (by simp [hx]))]
    · simp
    · intro k hk
      have := hno (k + 1) (by simp; omega)
      simpa using this
    · simpa using hm

/-- The first read overwrites the copy of the remainder: whatever `rem` is, the buffer
after the first read holds the bytes of that read and nothing else. -/
theorem firstRead_overwrites (rem c : List Nat) (e : Option GoError)
    (hc : c.length ≤ rem.length + _BUFSZ) : firstRead rem ⟨c, e⟩ = (c, e) := by
  have hlen : (rem ++ List.replicate _BUFSZ 0).length = rem.length + _BUFSZ := by simp
  simp only [firstRead, Read, hlen, Nat.min_eq_left hc, List.take_length]
  rw [List.take_append_of_le_length (by simp)]
  simp

/-- One round of the reader over reads without error whose chunks make up a payload that
does not begin with a marker, a marker and a line feed, the marker being completed only by
the last chunk: the round consumes exactly these chunks and delivers the payload, whatever
remainder it started from. -/
theorem serve_chunks (n : Int) (rem0 B i rc : List Nat) (cs : List (List Nat))
    (more : List ReadResult) (hi : IsDigits i) (hrc : IsDigits rc)
    (hB : beginsWithMarker B = false) (hcs : cs.flatten = B ++ marker i rc ++ [10])
    (hsz : ∀ c ∈ cs, c.length ≤ _BUFSZ)
    (hlast : ∀ k < cs.length, 0 < k → containsMarker (cs.take k).flatten = false) :
    ∃ rem1, serve n rem0 (okReads cs ++ more) = .done (⟨n, B, exitError rc⟩, rem1, more) := by
  cases cs with
  | nil =>
    exfalso
    have := congrArg List.length hcs
    simp at this
    omega
  | cons c cs =>
    have hcm : containsMarker (c ++ cs.flatten) = true := by
      rw [containsMarker_iff]
      refine ⟨B.length, ?_⟩
      have : c ++ cs.flatten = B ++ marker i rc ++ [10] := by simpa using hcs
      rw [this, markerAt, List.append_assoc, List.drop_left]
      exact splitMarker_isSome_of _ _ _ _ (splitMarker_marker i rc [10] hi hrc)
    have hacc : accumulated rem0 (okReads (c :: cs) ++ more)
        = some (c ++ cs.flatten, none, more) := by
      simp only [okReads, List.map_cons, List.cons_append, accumulated]
      rw [firstRead_overwrites rem0 c none (by have := hsz c (by simp); omega)]
      exact accumulate_chunks cs more c (fun x hx => hsz x (by simp [hx]))
        (fun k hk => by
          have := hlast (k + 1) (by simp; omega) (by omega)
          simpa using this) hcm
    obtain ⟨rem1, hdec⟩ := payload_fidelity B i rc hi hrc hB
    have hdec2 : decodeStep (c ++ cs.flatten) none (rem0.take 0)
        = some (B, exitError rc, rem1) := by
      have : c ++ cs.flatten = B ++ marker i rc ++ [10] := by simpa using hcs
      rw [this, List.take_zero]
      exact hdec
    exact ⟨rem1, by simp only [serve, hacc, hdec2]⟩

/-- C2, the claim as stated fails. With `B1 = a\n`, marker `1:0`, `B2 = b\n`, marker `2:0`
and the whole stream returned by a single read, the first round delivers everything before
the last marker, `a\n__@@GOSH@@__{{1:0}}\nb\n`, instead of `B1`, and no read is left for the
second round. -/
theorem no_byte_loss_refuted_single_read :
    serve 1 []
        (okReads [ascii "a\n" ++ marker (ascii "1") (ascii "0") ++ [10] ++ ascii "b\n"
          ++ marker (ascii "2") (ascii "0") ++ [10]])
      = .done (⟨1, ascii "a\n" ++ marker (ascii "1") (ascii "0") ++ [10] ++ ascii "b\n", none⟩,
          ascii "@@GOSH@@__\x7b\x7b2:0\x7d\x7d\n", []) ∧
    ascii "a\n" ++ marker (ascii "1") (ascii "0") ++ [10] ++ ascii "b\n" ≠ ascii "a\n" ∧
    serve 2 (ascii "@@GOSH@@__\x7b\x7b2:0\x7d\x7d\n") [] = .blocked := by
  refine ⟨by decide, by decide, by decide⟩

/-- C2, amended: for all payloads `B1`, `B2` that do not begin with a marker and all markers
`i1:rc1`, `i2:rc2`, for every way of splitting `B1`, marker 1, line feed into chunks `cs1`
and `B2`, marker 2, line feed into chunks `cs2`, each chunk no larger than the read buffer,
such that in each part the marker is completed only by the last chunk, two successive
rounds of the reader (the second started from the remainder the first left) over reads
that return these chunks deliver the payload `B1` and then the payload `B2`. -/
theorem no_byte_loss_aligned_reads (B1 B2 i1 rc1 i2 rc2 rem0 : List Nat)
    (cs1 cs2 : List (List Nat)) (hi1 : IsDigits i1) (hrc1 : IsDigits rc1)
    (hi2 : IsDigits i2) (hrc2 : IsDigits rc2)
    (hB1 : beginsWithMarker B1 = false) (hB2 : beginsWithMarker B2 = false)
    (hcs1 : cs1.flatten = B1 ++ marker i1 rc1 ++ [10])
    (hcs2 : cs2.flatten = B2 ++ marker i2 rc2 ++ [10])
    (hsz1 : ∀ c ∈ cs1, c.length ≤ _BUFSZ) (hsz2 : ∀ c ∈ cs2, c.length ≤ _BUFSZ)
    (hlast1 : ∀ k < cs1.length, 0 < k → containsMarker (cs1.take k).flatten = false)
    (hlast2 : ∀ k < cs2.length, 0 < k → containsMarker (cs2.take k).flatten = false) :
    ∃ rem1 rem2,
      serve 1 rem0 (okReads (cs1 ++ cs2)) = .done (⟨1, B1, exitError rc1⟩, rem1, okReads cs2) ∧
      serve 2 rem1 (okReads cs2) = .done (⟨2, B2, exitError rc2⟩, rem2, []) := by
  obtain ⟨rem1, h1⟩ := serve_chunks 1 rem0 B1 i1 rc1 cs1 (okReads cs2) hi1 hrc1 hB1 hcs1 hsz1
    hlast1
  obtain ⟨rem2, h2⟩ := serve_chunks 2 rem1 B2 i2 rc2 cs2 [] hi2 hrc2 hB2 hcs2 hsz2 hlast2
  refine ⟨rem1, rem2, ?_, ?_⟩
  · have : okReads (cs1 ++ cs2) = okReads cs1 ++ okReads cs2 := by simp [okReads]
    rw [this]
    exact h1
  · simpa using h2

/-- Witness for C2: `a\n`, marker `1:0`, line feed arrive in three reads, the second and
third cutting the marker; `b\n`, marker `2:0`, line feed arrive in one read. -/
theorem no_byte_loss_aligned_reads_witness :
    [ascii "a", ascii "\n__@@GO", ascii "SH@@__\x7b\x7b1:0\x7d\x7d\n"].flatten
      = ascii "a\n" ++ marker (ascii "1") (ascii "0") ++ [10] ∧
    (∀ k < [ascii "a", ascii "\n__@@GO", ascii "SH@@__\x7b\x7b1:0\x7d\x7d\n"].length, 0 < k →
      containsMarker
        ([ascii "a", ascii "\n__@@GO", ascii "SH@@__\x7b\x7b1:0\x7d\x7d\n"].take k).flatten
        = false) ∧
    ∃ rem1 rem2,
      serve 1 []
          (okReads ([ascii "a", ascii "\n__@@GO", ascii "SH@@__\x7b\x7b1:0\x7d\x7d\n"]
            ++ [ascii "b\n__@@GOSH@@__\x7b\x7b2:0\x7d\x7d\n"]))
        = .done (⟨1, ascii "a\n", exitError (ascii "0")⟩, rem1,
            okReads [ascii "b\n__@@GOSH@@__\x7b\x7b2:0\x7d\x7d\n"]) ∧
      serve 2 rem1 (okReads [ascii "b\n__@@GOSH@@__\x7b\x7b2:0\x7d\x7d\n"])
        = .done (⟨2, ascii "b\n", exitError (ascii "0")⟩, rem2, []) :=
  ⟨by decide, by decide,
    no_byte_loss_aligned_reads (ascii "a\n") (ascii "b\n") (ascii "1") (ascii "0") (ascii "2")
      (ascii "0") [] [ascii "a", ascii "\n__@@GO", ascii "SH@@__\x7b\x7b1:0\x7d\x7d\n"]
      [ascii "b\n__@@GOSH@@__\x7b\x7b2:0\x7d\x7d\n"]
      (by decide) (by decide) (by decide) (by decide) (by decide) (by decide) (by decide)
      (by decide) (by decide) (by decide) (by decide) (by decide)⟩

/-- A read that straddles the boundary loses a byte. The stream `a\n`, marker `1:0`, line
feed, `b\n`, marker `2:0`, line feed arrives in two reads, the first ending after the `b`.
The first round delivers `a\n` and leaves the remainder `@@GOSH@@__{{1:0}}\nb` (line 159
slices two bytes after the start of the marker); the second round, started from that
remainder, overwrites it with its first read (line 109) and delivers a lone line feed. -/
theorem byte_lost_across_boundary :
    serve 1 []
        [⟨ascii "a\n" ++ marker (ascii "1") (ascii "0") ++ ascii "\nb", none⟩,
         ⟨ascii "\n" ++ marker (ascii "2") (ascii "0") ++ ascii "\n", none⟩]
      = .done (⟨1, ascii "a\n", none⟩, ascii "@@GOSH@@__\x7b\x7b1:0\x7d\x7d\nb",
          [⟨ascii "\n" ++ marker (ascii "2") (ascii "0") ++ ascii "\n", none⟩]) ∧
    serve 2 (ascii "@@GOSH@@__\x7b\x7b1:0\x7d\x7d\nb")
        [⟨ascii "\n" ++ marker (ascii "2") (ascii "0") ++ ascii "\n", none⟩]
      = .done (⟨2, ascii "\n", none⟩, ascii "@@GOSH@@__\x7b\x7b2:0\x7d\x7d\n", []) ∧
    ascii "\n" ≠ ascii "b\n" := by
  refine ⟨by decide, by decide, by decide⟩

/-! ## The error indicator -/

theorem exitError_eq_none (rc : List Nat) : exitError rc = none ↔ rc = ascii "0" := by
  unfold exitError
  split_ifs with h <;> simp [h]

theorem serve_done (i : Int) (rem : List Nat) (reads : List ReadResult) (resp : response)
    (rem1 : List Nat) (rest : List ReadResult) (h : serve i rem reads = .done (resp, rem1, rest)) :
    ∃ buf err, accumulated rem reads = some (buf, err, rest) ∧
      decodeStep buf err (rem.take 0) = some (resp.buf, resp.err, rem1) ∧ resp.id = i := by
  unfold serve at h
  cases ha : accumulated rem reads with
  | none => rw [ha] at h; simp at h
  | some x =>
    obtain ⟨buf, err, rest1⟩ := x
    rw [ha] at h
    simp only at h
    cases hd : decodeStep buf err (rem.take 0) with
    | none => rw [hd] at h; simp at h
    | some y =>
      obtain ⟨buf1, err1, rem2⟩ := y
      rw [hd] at h
      simp only [Outcome.done.injEq, Prod.mk.injEq] at h
      obtain ⟨rfl, rfl, rfl⟩ := h
      exact ⟨buf, err, rfl, hd, rfl⟩

/-- C3: in every round of the reader that delivers a response, the error of the response
is nil if and only if no read of the round returned an error and the return-code field of
the marker the buffer is decoded at (the leading marker, or else the last marker) is `0`;
and when no read failed and that field `rc` is not `0`, the error is `error: "<rc>"`. -/
theorem error_indicator (i : Int) (rem : List Nat) (reads : List ReadResult)
    (resp : response) (rem1 : List Nat) (rest : List ReadResult)
    (h : serve i rem reads = .done (resp, rem1, rest)) :
    ∃ buf err consumed, accumulated rem reads = some (buf, err, rest) ∧
      reads = consumed ++ rest ∧
      (resp.err = none ↔
        (∀ r ∈ consumed, r.err = none) ∧
          ∃ p id post, DecodedAt buf p ∧ splitMarker (buf.drop p) = some (id, ascii "0", post)) ∧
      ((∀ r ∈ consumed, r.err = none) →
        ∀ p id rc post, DecodedAt buf p → splitMarker (buf.drop p) = some (id, rc, post) →
          rc ≠ ascii "0" → resp.err = some ⟨ascii "error: \"" ++ rc ++ ascii "\""⟩) := by
  obtain ⟨buf, err, hacc, hdec, -⟩ := serve_done i rem reads resp rem1 rest h
  obtain ⟨consumed, hreads, hiff, hmatch⟩ := accumulated_spec rem reads buf err rest hacc
  refine ⟨buf, err, consumed, hacc, hreads, ?_, ?_⟩
  · cases err with
    | some e =>
      have hre : resp.err = some e := by
        simp only [decodeStep, Option.some.injEq, Prod.mk.injEq] at hdec
        exact hdec.2.1.symm
      rw [hre]
      constructor
      · intro h0; exact absurd h0 (by simp)
      · rintro ⟨hall, -⟩
        exact absurd (hiff.mpr hall) (by simp)
    | none =>
      have hall := hiff.mp rfl
      obtain ⟨p, id, rc, post, hd, hs⟩ := exists_decodedAt buf (hmatch rfl)
      obtain ⟨rem2, hstep⟩ := decodeStep_decodedAt buf (rem.take 0) p id rc post hd hs
      rw [hstep] at hdec
      simp only [Option.some.injEq, Prod.mk.injEq] at hdec
      have hre : resp.err = exitError rc := hdec.2.1.symm
      rw [hre, exitError_eq_none]
      constructor
      · intro h0
        subst h0
        exact ⟨hall, p, id, post, hd, hs⟩
      · rintro ⟨-, q, id1, post1, hd1, hs1⟩
        have := DecodedAt.unique buf p q hd hd1
        subst this
        rw [hs] at hs1
        simp only [Option.some.injEq, Prod.mk.injEq] at hs1
        exact hs1.2.1
  · intro hall p id rc post hd hs hrc
    have herr : err = none := hiff.mpr hall
    subst herr
    obtain ⟨rem2, hstep⟩ := decodeStep_decodedAt buf (rem.take 0) p id rc post hd hs
    rw [hstep] at hdec
    simp only [Option.some.injEq, Prod.mk.injEq] at hdec
    rw [← hdec.2.1]
    unfold exitError
    rw [if_neg hrc]

/-- Witness for C3: one read brings `x`, a line feed and the marker of submission 1 with
return code 3. -/
theorem error_indicator_witness :
    serve 1 [] [⟨ascii "x\n" ++ marker (ascii "1") (ascii "3") ++ [10], none⟩]
      = .done (⟨1, ascii "x\n", some ⟨ascii "error: \"3\""⟩⟩,
          ascii "@@GOSH@@__\x7b\x7b1:3\x7d\x7d\n", []) ∧
    ∃ buf err consumed,
      accumulated [] [⟨ascii "x\n" ++ marker (ascii "1") (ascii "3") ++ [10], none⟩]
        = some (buf, err, []) ∧
      [(⟨ascii "x\n" ++ marker (ascii "1") (ascii "3") ++ [10], none⟩ : ReadResult)]
        = consumed ++ [] ∧
      ((some ⟨ascii "error: \"3\""⟩ : Option GoError) = none ↔
        (∀ r ∈ consumed, r.err = none) ∧
          ∃ p id post, DecodedAt buf p ∧ splitMarker (buf.drop p) = some (id, ascii "0", post)) ∧
      ((∀ r ∈ consumed, r.err = none) →
        ∀ p id rc post, DecodedAt buf p → splitMarker (buf.drop p) = some (id, rc, post) →
          rc ≠ ascii "0" →
          (some ⟨ascii "error: \"3\""⟩ : Option GoError)
            = some ⟨ascii "error: \"" ++ rc ++ ascii "\""⟩) :=
  ⟨by decide,
    error_indicator 1 [] [⟨ascii "x\n" ++ marker (ascii "1") (ascii "3") ++ [10], none⟩]
      ⟨1, ascii "x\n", some ⟨ascii "error: \"3\""⟩⟩ (ascii "@@GOSH@@__\x7b\x7b1:3\x7d\x7d\n") []
      (by decide)⟩

/-! ## The leading marker -/

/-- C4: for every buffer that begins with a marker `i:rc` (non-empty digit strings) and
without read error, both recognizers match, the leading-marker one is tried first, the
delivered payload is empty and the error is the one `rc` gives (nil for `0`, and
`error: "<rc>"` otherwise), whatever follows the marker. -/
theorem leading_marker_empty_payload (i rc post : List Nat) (hi : IsDigits i)
    (hrc : IsDigits rc) :
    gosh_re2.Match (marker i rc ++ post) = true ∧
    gosh_re.Match (marker i rc ++ post) = true ∧
    decodeStep (marker i rc ++ post) none [] = decodeRe2 (marker i rc ++ post) [] ∧
    decodeStep (marker i rc ++ post) none []
      = some ([], if rc = ascii "0" then none
          else some ⟨ascii "error: \"" ++ rc ++ ascii "\""⟩, post) := by
  have hs := splitMarker_marker i rc post hi hrc
  have hb := splitMarker_isSome_of _ _ _ _ hs
  have h2 : gosh_re2.Match (marker i rc ++ post) = true := by rw [gosh_re2_Match, hb]
  refine ⟨h2, ?_, ?_, ?_⟩
  · rw [gosh_re_Match_iff]
    exact ⟨0, by simpa [markerAt] using hb⟩
  · simp [decodeStep, h2]
  · rw [decodeStep_lead _ _ i rc post hs]
    rfl

/-- Witness for C4: the marker alone with a line feed, once with return code 0 (silent
success), once with return code 1. -/
theorem leading_marker_empty_payload_witness :
    IsDigits (ascii "4") ∧ IsDigits (ascii "0") ∧ IsDigits (ascii "1") ∧
    decodeStep (marker (ascii "4") (ascii "0") ++ [10]) none [] = some ([], none, [10]) ∧
    decodeStep (marker (ascii "4") (ascii "1") ++ [10]) none []
      = some ([], some ⟨ascii "error: \"1\""⟩, [10]) :=
  ⟨by decide, by decide, by decide,
    (leading_marker_empty_payload (ascii "4") (ascii "0") [10] (by decide) (by decide)).2.2.2,
    (leading_marker_empty_payload (ascii "4") (ascii "1") [10] (by decide) (by decide)).2.2.2⟩

/-! ## Request framing -/

theorem gosh_feed_eq (i : Int) :
    gosh_feed i = ascii "echo __@@GOSH@@__\x7b\x7b" ++ itoa i ++ ascii ":$?\x7d\x7d" := rfl

theorem Sprintf_request (cmd feed : List Nat) :
    Sprintf (ascii "%s\n%s\n") [.str cmd, .str feed] = cmd ++ [10] ++ feed ++ [10] := by
  have hf : ascii "%s\n%s\n" = [37, 115, 10, 37, 115, 10] := by decide
  rw [hf]
  simp [Sprintf, verb]

/-- C5: for every command string and every state of the id counter, `send` passes to the
shell's stdin, in one `Write`, exactly the command, a line feed, the trailer
`echo __@@GOSH@@__{{<i>:$?}}` with the decimal rendering of the id `i` that `id` returned,
and a line feed; `gosh_feed i` is that trailer; the command bytes are copied unchanged. -/
theorem request_framing (w : World) (cmd : List Nat) (werr : Option GoError)
    (resp : response) :
    (Shell.send w cmd werr resp).2.stdin
      = w.stdin ++ [cmd ++ [10]
          ++ (ascii "echo __@@GOSH@@__\x7b\x7b" ++ itoa (Shell.id w).1 ++ ascii ":$?\x7d\x7d")
          ++ [10]] ∧
    (∀ i : Int,
      gosh_feed i = ascii "echo __@@GOSH@@__\x7b\x7b" ++ itoa i ++ ascii ":$?\x7d\x7d") ∧
    itoa 12 = ascii "12" := by
  refine ⟨?_, gosh_feed_eq, by decide⟩
  unfold Shell.send
  simp only [Sprintf_request, gosh_feed_eq]
  cases werr <;> rfl

/-! ## Submission ids -/

theorem wrapInt_eq (x : Int) (h1 : -9223372036854775808 ≤ x) (h2 : x ≤ 9223372036854775807) :
    wrapInt x = x := by
  unfold wrapInt
  omega

/-- C6, the claim as stated fails: when the counter holds the largest `int`, the next call
of `id` returns the smallest `int`, which is neither one greater nor non-negative. -/
theorem id_wraps_at_maxInt :
    (Shell.id ⟨9223372036854775807, [], []⟩).1 = -9223372036854775808 ∧
    (Shell.id ⟨9223372036854775807, [], []⟩).1 ≠ 9223372036854775807 + 1 ∧
    (Shell.id ⟨9223372036854775807, [], []⟩).1 < 0 := by
  decide

/-- C6, amended: as long as the counter stays at or below the largest `int` (`2^63 - 1`),
`n` successive calls of `id` from a non-negative counter `c` return `c+1`, ..., `c+n`, each
one greater than the one before: the ids are strictly increasing and positive, the counter
ends at `c+n`, and the ids sent on the channel are the ids returned, in the same order. -/
theorem id_monotone (n : Nat) (w : World) (h0 : 0 ≤ w.g_counter)
    (hmax : w.g_counter + n ≤ maxInt) :
    (idCalls n w).1 = (List.range n).map (fun k : Nat => w.g_counter + 1 + (k : Int)) ∧
    (idCalls n w).2.icmd = w.icmd ++ (idCalls n w).1 ∧
    (idCalls n w).2.g_counter = w.g_counter + n ∧
    (idCalls n w).1.Pairwise (fun a b => a < b) ∧
    ∀ x ∈ (idCalls n w).1, 0 < x := by
  unfold maxInt at hmax
  have key : ∀ (n : Nat) (w : World), 0 ≤ w.g_counter →
      w.g_counter + n ≤ 9223372036854775807 →
      (idCalls n w).1 = (List.range n).map (fun k : Nat => w.g_counter + 1 + (k : Int)) ∧
      (idCalls n w).2.icmd = w.icmd ++ (idCalls n w).1 ∧
      (idCalls n w).2.g_counter = w.g_counter + n := by
    intro n
    induction n with
    | zero => intro w _ _; simp [idCalls]
    | succ n ih =>
      intro w h0 hmax
      have hw : wrapInt (w.g_counter + 1) = w.g_counter + 1 :=
        wrapInt_eq _ (by omega) (by push_cast at hmax; omega)
      obtain ⟨h1, h2, h3⟩ := ih (Shell.id w).2
        (by simp only [Shell.id, hw]; omega)
        (by simp only [Shell.id, hw]; push_cast at hmax; omega)
      simp only [idCalls]
      refine ⟨?_, ?_, ?_⟩
      · rw [h1, List.range_succ_eq_map]
        simp only [Shell.id, hw, List.map_cons, List.map_map, Nat.cast_zero, add_zero]
        congr 1
        apply List.map_congr_left
        intro k _
        simp only [Function.comp, Nat.cast_succ]
        ring
      · rw [h2]
        simp only [Shell.id, hw, List.append_assoc, List.singleton_append]
      · rw [h3]
        simp only [Shell.id, hw]
        push_cast
        ring
  obtain ⟨h1, h2, h3⟩ := key n w h0 hmax
  refine ⟨h1, h2, h3, ?_, ?_⟩
  · rw [h1, List.pairwise_map]
    have : (List.range n).Pairwise (fun a b => a < b) := List.pairwise_lt_range n
    exact this.imp (fun hab => by omega)
  · intro x hx
    rw [h1, List.mem_map] at hx
    obtain ⟨k, -, rfl⟩ := hx
    omega

/-- Witness for C6: three calls from the initial counter 0 return 1, 2, 3. -/
theorem id_monotone_witness :
    (0 : Int) ≤ World.init.g_counter ∧ World.init.g_counter + (3 : Nat) ≤ maxInt ∧
    (idCalls 3 World.init).1 = [1, 2, 3] ∧
    (idCalls 3 World.init).2.icmd = [1, 2, 3] ∧
    (idCalls 3 World.init).2.g_counter = 3 :=
  ⟨by decide, by decide,
    (id_monotone 3 World.init (by decide) (by decide)).1.trans (by decide),
    (id_monotone 3 World.init (by decide) (by decide)).2.1.trans (by decide),
    (id_monotone 3 World.init (by decide) (by decide)).2.2.1.trans (by decide)⟩

/-! ## The remainder -/

/-- C7, the claim as stated fails: on the buffer made of the marker `1:0`, a line feed and
the byte `x`, the leading-marker branch leaves the remainder `\nx`, the suffix that starts
right after the closing `}}`, while the suffix that starts two bytes after the closing
`}}` is empty. -/
theorem remainder_not_two_past_marker :
    (decodeStep (marker (ascii "1") (ascii "0") ++ ascii "\nx") none []).map (fun r => r.2.2)
      = some (ascii "\nx") ∧
    (marker (ascii "1") (ascii "0") ++ ascii "\nx").drop
        ((marker (ascii "1") (ascii "0")).length + 2) = [] ∧
    (decodeStep (marker (ascii "1") (ascii "0") ++ ascii "\nx") none []).map (fun r => r.2.2)
      ≠ some ((marker (ascii "1") (ascii "0") ++ ascii "\nx").drop
          ((marker (ascii "1") (ascii "0")).length + 2)) := by
  have hs := splitMarker_marker (ascii "1") (ascii "0") (ascii "\nx") (by decide) (by decide)
  rw [decodeStep_lead _ _ _ _ _ hs]
  decide

/-- C7, amended: on the leading-marker path, for every buffer that begins with a marker
`i:rc` and without read error, the new remainder is the suffix of the buffer that starts
right after the closing `}}` of that marker (offset `idx[1]+2`, `idx[1]` being the end of
the digit fields), so it holds no byte of the marker. -/
theorem remainder_after_leading_marker (i rc post : List Nat) (hi : IsDigits i)
    (hrc : IsDigits rc) :
    (decodeStep (marker i rc ++ post) none []).map (fun r => r.2.2) = some post ∧
    (marker i rc ++ post).drop (marker i rc).length = post := by
  rw [decodeStep_lead _ _ i rc post (splitMarker_marker i rc post hi hrc)]
  exact ⟨rfl, List.drop_left _ _⟩

/-- Witness for C7: the marker `7:0` followed by a line feed and `next`. -/
theorem remainder_after_leading_marker_witness :
    IsDigits (ascii "7") ∧ IsDigits (ascii "0") ∧
    (decodeStep (marker (ascii "7") (ascii "0") ++ ascii "\nnext") none []).map
      (fun r => r.2.2) = some (ascii "\nnext") :=
  ⟨by decide, by decide,
    (remainder_after_leading_marker (ascii "7") (ascii "0") (ascii "\nnext") (by decide)
      (by decide)).1⟩

/-- On the trailing-marker path the new remainder is the suffix of the buffer that starts
two bytes after the start of the last marker (offset `idx[3]+2`, `idx[3]` being the end of
the payload): it holds the marker without its first two bytes. -/
theorem remainder_after_trailing_marker (buf : List Nat) (p : Nat)
    (hnb : beginsWithMarker buf = false) (hl : LastMarkerAt buf p) :
    (decodeStep buf none []).map (fun r => r.2.2) = some (buf.drop (p + 2)) := by
  obtain ⟨i, rc, post, hs⟩ := hl.split
  rw [decodeStep_trail buf [] p i rc post hnb hs hl.later]
  rfl

/-! ## The first read of a round -/

/-- C8, the code at the failing input: with remainder `x` and a first read that returns
`y`, the buffer the recognizers are applied to is `y`, not `xy`: the remainder is
overwritten by the read instead of being followed by it. -/
theorem remainder_overwritten_by_first_read :
    (firstRead (ascii "x") ⟨ascii "y", none⟩).1 = ascii "y" ∧
    (firstRead (ascii "x") ⟨ascii "y", none⟩).1 ≠ ascii "x" ++ ascii "y" := by
  rw [firstRead_overwrites _ _ _ (by decide)]
  decide

/-! ## The trailing marker -/

/-- C9: for every buffer that contains a marker but does not begin with one, and without
read error, the decode step delivers as payload the bytes before the last marker
occurrence (whatever they are, earlier markers and line feeds included), with the error
that the return code of that last marker gives. -/
theorem trailing_marker_greedy (buf : List Nat) (hex : ∃ q, markerAt buf q = true)
    (hnb : beginsWithMarker buf = false) :
    ∃ p i rc post rem, LastMarkerAt buf p ∧ buf = buf.take p ++ marker i rc ++ post ∧
      IsDigits i ∧ IsDigits rc ∧
      decodeStep buf none [] = some (buf.take p, exitError rc, rem) := by
  obtain ⟨p, hl⟩ := exists_lastMarker buf hex
  obtain ⟨i, rc, post, hs⟩ := hl.split
  obtain ⟨hd, hi, hrc⟩ := splitMarker_some _ _ _ _ hs
  refine ⟨p, i, rc, post, _, hl, ?_, hi, hrc, decodeStep_trail buf [] p i rc post hnb hs hl.later⟩
  rw [List.append_assoc, ← hd, List.take_append_drop]

/-- Witness for C9: a payload that holds a line feed and an earlier look-alike marker. -/
theorem trailing_marker_greedy_witness :
    (∃ q, markerAt (ascii "a\n__@@GOSH@@__\x7b\x7b9:9\x7d\x7d\nb\n"
        ++ marker (ascii "2") (ascii "0") ++ [10]) q = true) ∧
    beginsWithMarker (ascii "a\n__@@GOSH@@__\x7b\x7b9:9\x7d\x7d\nb\n"
        ++ marker (ascii "2") (ascii "0") ++ [10]) = false ∧
    (∃ p i rc post rem,
      LastMarkerAt (ascii "a\n__@@GOSH@@__\x7b\x7b9:9\x7d\x7d\nb\n"
        ++ marker (ascii "2") (ascii "0") ++ [10]) p ∧
      ascii "a\n__@@GOSH@@__\x7b\x7b9:9\x7d\x7d\nb\n" ++ marker (ascii "2") (ascii "0") ++ [10]
        = (ascii "a\n__@@GOSH@@__\x7b\x7b9:9\x7d\x7d\nb\n" ++ marker (ascii "2") (ascii "0")
            ++ [10]).take p ++ marker i rc ++ post ∧
      IsDigits i ∧ IsDigits rc ∧
      decodeStep (ascii "a\n__@@GOSH@@__\x7b\x7b9:9\x7d\x7d\nb\n"
          ++ marker (ascii "2") (ascii "0") ++ [10]) none []
        = some ((ascii "a\n__@@GOSH@@__\x7b\x7b9:9\x7d\x7d\nb\n"
            ++ marker (ascii "2") (ascii "0") ++ [10]).take p, exitError rc, rem)) ∧
    decodeStep (ascii "a\n__@@GOSH@@__\x7b\x7b9:9\x7d\x7d\nb\n"
        ++ marker (ascii "2") (ascii "0") ++ [10]) none []
      = some (ascii "a\n__@@GOSH@@__\x7b\x7b9:9\x7d\x7d\nb\n", none,
          ascii "@@GOSH@@__\x7b\x7b2:0\x7d\x7d\n") :=
  ⟨⟨2, by decide⟩, by decide,
    trailing_marker_greedy _ ⟨2, by decide⟩ (by decide), by decide⟩

/-! ## No index or slice out of range -/

/-- The digit fields of the marker at offset `p`, as a slice of the buffer. -/
theorem slice_circ (buf : List Nat) (p : Nat) (i rc post : List Nat)
    (hd : buf.drop p = marker i rc ++ post) :
    slice buf ((p + 14 : Nat) : Int) ((p + 14 + i.length + 1 + rc.length : Nat) : Int)
      = some (i ++ 58 :: rc) := by
  have hlen : buf.length = p + (14 + i.length + 1 + rc.length + 2 + post.length) := by
    have h1 : (buf.drop p).length = 14 + i.length + 1 + rc.length + 2 + post.length := by
      rw [hd, List.length_append, marker_length]
    rw [List.length_drop] at h1
    omega
  have hbuf : buf = buf.take p ++ (GOSH_beg ++ ((i ++ 58 :: rc) ++ 125 :: 125 :: post)) := by
    conv_lhs => rw [← List.take_append_drop p buf, hd, marker_append]
    simp
  have htake : (buf.take p).length = p := by simp; omega
  have hcirc : (buf.take (p + 14 + i.length + 1 + rc.length)).drop (p + 14) = i ++ 58 :: rc := by
    have := take_drop_mid (buf.take p ++ GOSH_beg) (i ++ 58 :: rc) (125 :: 125 :: post)
    rw [List.length_append, htake, GOSH_beg_length, List.append_assoc, ← hbuf] at this
    have e : p + 14 + i.length + 1 + rc.length = p + 14 + (i ++ 58 :: rc).length := by
      simp only [List.length_append, List.length_cons]; omega
    rw [e]
    exact this
  rw [slice_of_nat buf _ _ (p + 14) (p + 14 + i.length + 1 + rc.length) rfl rfl (by omega)
    (by omega), hcirc]

theorem Split_fields (i rc : List Nat) (hi : IsDigits i) (hrc : IsDigits rc) :
    Split (i ++ 58 :: rc) 58 = [i, rc] := by
  rw [Split_append_sep i rc 58 (digit_ne_colon i hi.2), Split_no_sep rc 58 (digit_ne_colon rc hrc.2)]

theorem decodeStep_isSome (buf rem : List Nat) (h : gosh_re.Match buf = true) :
    (decodeStep buf none rem).isSome = true := by
  obtain ⟨p, i, rc, post, hd, hs⟩ := exists_decodedAt buf h
  obtain ⟨rem1, hstep⟩ := decodeStep_decodedAt buf rem p i rc post hd hs
  rw [hstep]
  rfl

/-- A round of the reader never panics. -/
theorem serve_ne_panic (i : Int) (rem : List Nat) (reads : List ReadResult) :
    serve i rem reads ≠ .panic := by
  unfold serve
  cases ha : accumulated rem reads with
  | none => simp
  | some x =>
    obtain ⟨buf, err, rest⟩ := x
    simp only
    cases err with
    | some e => simp [decodeStep]
    | none =>
      obtain ⟨-, -, -, hm⟩ := accumulated_spec rem reads buf none rest ha
      have := decodeStep_isSome buf (rem.take 0) (hm rfl)
      rw [Option.isSome_iff_exists] at this
      obtain ⟨y, hy⟩ := this
      rw [hy]
      simp

/-- C10: for every buffer that `gosh_re` matches, the decode step ends without a panic.
On the leading-marker path the bounds of group 1 are in range, `idx[1]+2` is at most the
length of the buffer, and the captured text splits at the colon into exactly two fields.
On the trailing-marker path group 2 took part in the match (its bounds are not `-1`),
the payload is not empty, `0 <= msg_beg <= msg_end <= len(buf)`, `idx[3]+2` is at most the
length of the buffer, the bounds of group 3 are in range and the captured text splits into
exactly two fields. -/
theorem decode_in_range (buf rem : List Nat) (h : gosh_re.Match buf = true) :
    (decodeStep buf none rem).isSome = true ∧
    (gosh_re2.Match buf = true →
      ∃ m0 m1 g1s g1e : Int, ∃ circ,
        gosh_re2.FindSubmatchIndex buf = some [m0, m1, g1s, g1e] ∧
        0 ≤ g1s ∧ g1s ≤ g1e ∧ g1e + 2 ≤ (buf.length : Int) ∧
        slice buf g1s g1e = some circ ∧ (Split circ 58).length = 2) ∧
    (gosh_re2.Match buf = false →
      ∃ m0 m1 g1s g1e g2s g2e g3s g3e : Int, ∃ circ,
        gosh_re.FindSubmatchIndex buf = some [m0, m1, g1s, g1e, g2s, g2e, g3s, g3e] ∧
        g2s ≠ -1 ∧ g2e ≠ -1 ∧ 0 ≤ g2s ∧ g2s < g2e ∧
        0 ≤ g1s ∧ g1s < g2e ∧ g2e ≤ (buf.length : Int) ∧ g2e + 2 ≤ (buf.length : Int) ∧
        0 ≤ g3s ∧ g3s ≤ g3e ∧ g3e ≤ (buf.length : Int) ∧
        slice buf g3s g3e = some circ ∧ (Split circ 58).length = 2) := by
  refine ⟨decodeStep_isSome buf rem h, ?_, ?_⟩
  · intro h2
    rw [gosh_re2_Match] at h2
    unfold beginsWithMarker at h2
    rw [Option.isSome_iff_exists] at h2
    obtain ⟨⟨i, rc, post⟩, hs⟩ := h2
    obtain ⟨hbuf, hi, hrc⟩ := splitMarker_some buf i rc post hs
    have hlen : buf.length = 14 + i.length + 1 + rc.length + 2 + post.length := by
      rw [hbuf, List.length_append, marker_length]
    have hc := slice_circ buf 0 i rc post (by simpa using hbuf)
    simp only [Nat.zero_add] at hc
    refine ⟨0, ((14 + i.length + 1 + rc.length + 2 : Nat) : Int), 14,
      ((14 + i.length + 1 + rc.length : Nat) : Int), i ++ 58 :: rc, ?_, by omega,
      by push_cast; omega, by push_cast; omega, hc, by rw [Split_fields i rc hi hrc]; rfl⟩
    rw [find_gosh_re2, hs]
  · intro h2
    rw [gosh_re2_Match] at h2
    obtain ⟨p, hl⟩ := exists_lastMarker buf ((gosh_re_Match_iff buf).mp h)
    obtain ⟨i, rc, post, hs⟩ := hl.split
    obtain ⟨hd, hi, hrc⟩ := splitMarker_some _ _ _ _ hs
    have hp : 0 < p := by
      rcases Nat.eq_zero_or_pos p with h0 | h0
      · subst h0
        rw [List.drop_zero] at hs
        rw [splitMarker_isSome_of buf i rc post hs] at h2
        exact absurd h2 (by simp)
      · exact h0
    have hlen : buf.length = p + (14 + i.length + 1 + rc.length + 2 + post.length) := by
      have h1 : (buf.drop p).length = 14 + i.length + 1 + rc.length + 2 + post.length := by
        rw [hd, List.length_append, marker_length]
      rw [List.length_drop] at h1
      omega
    obtain ⟨g2s, g2e, hfind, -, hcap⟩ := find_gosh_re buf p i rc post hs hl.later
    obtain ⟨hg0, hgp, rfl⟩ := hcap hp
    refine ⟨0, ((p + 14 + i.length + 1 + rc.length + 2 : Nat) : Int), 0, (p : Int), g2s,
      (p : Int), ((p + 14 : Nat) : Int), ((p + 14 + i.length + 1 + rc.length : Nat) : Int),
      i ++ 58 :: rc, hfind, by omega, by omega, hg0, hgp,
      by omega, by omega, by omega, by omega, by omega, by push_cast; omega,
      by push_cast; omega, slice_circ buf p i rc post hd,
      by rw [Split_fields i rc hi hrc]; rfl⟩

/-- Witness for C10: a buffer with two lines of output before the marker. -/
theorem decode_in_range_witness :
    gosh_re.Match (ascii "one\ntwo\n" ++ marker (ascii "3") (ascii "127") ++ [10]) = true ∧
    (decodeStep (ascii "one\ntwo\n" ++ marker (ascii "3") (ascii "127") ++ [10]) none []).isSome
      = true :=
  ⟨by decide,
    (decode_in_range (ascii "one\ntwo\n" ++ marker (ascii "3") (ascii "127") ++ [10]) []
      (by decide)).1⟩

end Gosh
